import Mathlib

/-!
# Verification of the box2d collision kernel interface specification

This development gives a shallow embedding, over exact rational arithmetic,
of the collision kernel declared in `include/box2d/collision.h`.  The
repository ships only the public header, so the algorithm bodies are
modelled from the specification document (its data model in section 3 and
the component designs in section 4); each such definition carries a doc
comment starting with `Modelled from the spec:`.  Machine `float` values
are embedded as `ℚ`; where the original code takes a square root, the
exact root is passed explicitly together with its defining equation.
-/

set_option maxHeartbeats 1600000

/-- A 2D vector (`b2Vec2`), embedded as a pair of rationals. -/
abbrev b2Vec2 := ℚ × ℚ

/-- Dot product of two vectors. -/
def dotV (a b : b2Vec2) : ℚ := a.1 * b.1 + a.2 * b.2

/-- 2D cross product (scalar). -/
def crossV (a b : b2Vec2) : ℚ := a.1 * b.2 - a.2 * b.1

/-- Squared length of a vector. -/
def normSqV (a : b2Vec2) : ℚ := dotV a a

/-- Scalar multiplication of a vector, written out explicitly. -/
def smulV (q : ℚ) (v : b2Vec2) : b2Vec2 := (q * v.1, q * v.2)

/-- Squared distance between two points. -/
def distSqV (a b : b2Vec2) : ℚ := normSqV (a - b)

/-- A 2D rotation (`b2Rot`): cosine/sine pair. -/
structure b2Rot where
  c : ℚ
  s : ℚ
deriving DecidableEq, Repr

/-- A rigid transform (`b2Transform`): rotation plus translation. -/
structure b2Transform where
  p : b2Vec2
  q : b2Rot
deriving DecidableEq, Repr

/-- Apply a transform to a point (`b2TransformPoint`). -/
def b2TransformPoint (T : b2Transform) (v : b2Vec2) : b2Vec2 :=
  (T.q.c * v.1 - T.q.s * v.2 + T.p.1, T.q.s * v.1 + T.q.c * v.2 + T.p.2)

/-- The identity transform. -/
def b2Transform_identity : b2Transform := ⟨(0, 0), ⟨1, 0⟩⟩

/-- `b2_linearSlop` (0.005 m): the basic length tolerance of the engine. -/
def b2_linearSlop : ℚ := 1 / 200

/-- Modelled from the spec: the speculative contact margin used by the
manifold generators (an implementation-internal constant, four linear
slops). -/
def b2_speculativeDistance : ℚ := 4 * b2_linearSlop

/-- Clamp a rational into an interval. -/
def clampQ (x lo hi : ℚ) : ℚ := max lo (min x hi)

/-! ## Polygons and ray casts (geometry group) -/

/-- A convex polygon (`b2Polygon`): vertices, outward edge normals,
centroid and a rounding radius.  The fixed-capacity vertex arrays of the C
struct are embedded as lists whose length is the vertex `count`. -/
structure b2Polygon where
  vertices : List b2Vec2
  normals : List b2Vec2
  centroid : b2Vec2
  radius : ℚ
deriving DecidableEq, Repr

/-- Number of vertices of a polygon (the `count` field). -/
def b2Polygon.count (p : b2Polygon) : ℕ := p.vertices.length

/-- `b2MakeBox`: an axis-aligned box polygon of given half extents,
counter-clockwise with outward unit normals, bypassing hull
construction. -/
def b2MakeBox (hx hy : ℚ) : b2Polygon :=
  { vertices := [(-hx, -hy), (hx, -hy), (hx, hy), (-hx, hy)]
    normals := [(0, -1), (1, 0), (0, 1), (-1, 0)]
    centroid := (0, 0)
    radius := 0 }

/-- Low level ray cast input (`b2RayCastInput`). -/
structure b2RayCastInput where
  origin : b2Vec2
  translation : b2Vec2
  maxFraction : ℚ
deriving DecidableEq, Repr

/-- Ray/shape cast output (`b2CastOutput`).  The debug iteration counter of
the C struct is omitted. -/
structure b2CastOutput where
  normal : b2Vec2
  point : b2Vec2
  fraction : ℚ
  hit : Bool
deriving DecidableEq, Repr

/-- The zeroed miss output: a cast returns zero fraction and normal when
it does not hit. -/
def b2CastOutput.miss : b2CastOutput := ⟨(0, 0), (0, 0), 0, false⟩

/-- Running state of the polygon ray-cast clipping loop: the entry and
exit fractions, the index of the clipping edge, and whether the ray is
still alive. -/
structure RayPolyState where
  lower : ℚ
  upper : ℚ
  index : Option ℕ
  valid : Bool
deriving DecidableEq, Repr

/-- Modelled from the spec: one edge step of `b2RayCastPolygon` (body not
in src).  The ray is clipped against the half-plane of edge `i`; a zero
denominator with the origin outside kills the ray, otherwise the entry or
exit fraction is tightened. -/
def rayPolyStep (poly : b2Polygon) (p d : b2Vec2) (st : RayPolyState) (i : ℕ) :
    RayPolyState :=
  if st.valid = false then st
  else
    let vi := poly.vertices.getD i (0, 0)
    let ni := poly.normals.getD i (0, 0)
    let num := dotV ni (vi - p)
    let den := dotV ni d
    let st' :=
      if den = 0 then (if num < 0 then { st with valid := false } else st)
      else if den < 0 ∧ num < st.lower * den then
        { st with lower := num / den, index := some i }
      else if 0 < den ∧ num < st.upper * den then
        { st with upper := num / den }
      else st
    if st'.upper < st'.lower then { st' with valid := false } else st'

/-- Modelled from the spec: `b2RayCastPolygon` (body not in src), the
radius-zero path — clip the parametrized ray against every edge
half-plane, keeping the largest entering and smallest leaving fraction;
report a hit at the entering fraction when an entering edge was found. -/
def b2RayCastPolygon (poly : b2Polygon) (input : b2RayCastInput) : b2CastOutput :=
  let p := input.origin
  let d := input.translation
  let st := (List.range poly.count).foldl (rayPolyStep poly p d)
      ⟨0, input.maxFraction, none, true⟩
  if st.valid then
    match st.index with
    | some i =>
        { normal := poly.normals.getD i (0, 0)
          point := p + smulV st.lower d
          fraction := st.lower
          hit := true }
    | none => b2CastOutput.miss
  else b2CastOutput.miss

/-- C9: the concrete scenario of the spec — a 1×1-half-extent box at the
origin, ray cast from (−5,0) towards (5,0) (translation (10,0), max
fraction 1) reports a hit at point (−1,0) with normal (−1,0) and
fraction 0.4. -/
theorem c9_raycast_box_concrete :
    b2RayCastPolygon (b2MakeBox 1 1) ⟨(-5, 0), (10, 0), 1⟩ =
      { normal := (-1, 0), point := (-1, 0), fraction := 2 / 5, hit := true } := by
  with_unfolding_all decide

/-! ## Circle–circle manifold (collision group) -/

/-- A solid circle (`b2Circle`). -/
structure b2Circle where
  center : b2Vec2
  radius : ℚ
deriving DecidableEq, Repr

/-- A manifold contact point (`b2ManifoldPoint`).  Only the fields the
collision functions compute are embedded; the solver-facing accumulator
fields (impulses, normal velocity) are initialized to zero by the C code
and carry no collision information. -/
structure b2ManifoldPoint where
  point : b2Vec2
  separation : ℚ
  id : ℕ
deriving DecidableEq, Repr

/-- A contact manifold (`b2Manifold`); `pointCount` is the length of the
point list (0, 1 or 2). -/
structure b2Manifold where
  normal : b2Vec2
  points : List b2ManifoldPoint
deriving DecidableEq, Repr

/-- The `pointCount` field of a manifold. -/
def b2Manifold.pointCount (m : b2Manifold) : ℕ := m.points.length

/-- The empty manifold (zero points). -/
def b2Manifold.empty : b2Manifold := ⟨(0, 0), []⟩

/-- Modelled from the spec: `b2CollideCircles` (body not in src) — compute
the distance `d` between the transformed centers, set
`separation = d − rA − rB`, return no points when the separation exceeds
the speculative margin, and otherwise one point midway between the two
surface points.  The square root `dist` of the squared center distance is
passed explicitly; theorems tie it to its defining equation. -/
def b2CollideCircles (circleA : b2Circle) (xfA : b2Transform) (circleB : b2Circle)
    (xfB : b2Transform) (dist : ℚ) : b2Manifold :=
  let p1 := b2TransformPoint xfA circleA.center
  let p2 := b2TransformPoint xfB circleB.center
  let separation := dist - circleA.radius - circleB.radius
  if b2_speculativeDistance < separation then b2Manifold.empty
  else
    let normal := if 0 < dist then smulV (1 / dist) (p2 - p1) else (1, 0)
    let cA := p1 + smulV circleA.radius normal
    let cB := p2 - smulV circleB.radius normal
    { normal := normal
      points := [{ point := smulV (1 / 2) (cA + cB), separation := separation, id := 0 }] }

/-- The speculative margin is positive. -/
theorem b2_speculativeDistance_pos : 0 < b2_speculativeDistance := by
  norm_num [b2_speculativeDistance, b2_linearSlop]

/-- C4: for circles whose transformed centers are a distance `d` apart
(`d` the exact nonnegative square root of the squared center distance):
when `d < rA + rB`, `b2CollideCircles` returns exactly one point whose
separation is the negative value `d − (rA + rB)`; and when `d` exceeds
`rA + rB` by more than the speculative margin it returns zero points. -/
theorem c4_collide_circles_separation (circleA circleB : b2Circle)
    (xfA xfB : b2Transform) (d : ℚ) (hd0 : 0 ≤ d)
    (hdsq : d * d = distSqV (b2TransformPoint xfA circleA.center)
      (b2TransformPoint xfB circleB.center)) :
    (d < circleA.radius + circleB.radius →
      (b2CollideCircles circleA xfA circleB xfB d).pointCount = 1 ∧
      ((b2CollideCircles circleA xfA circleB xfB d).points.getD 0
          ⟨(0, 0), 0, 0⟩).separation = d - (circleA.radius + circleB.radius) ∧
      d - (circleA.radius + circleB.radius) < 0) ∧
    (circleA.radius + circleB.radius + b2_speculativeDistance < d →
      (b2CollideCircles circleA xfA circleB xfB d).pointCount = 0) := by
  constructor
  · intro hlt
    have hsep : d - circleA.radius - circleB.radius < 0 := by linarith
    have hnot : ¬ b2_speculativeDistance < d - circleA.radius - circleB.radius := by
      have := b2_speculativeDistance_pos
      linarith
    unfold b2CollideCircles
    simp only [if_neg hnot]
    refine ⟨rfl, ?_, by linarith⟩
    show d - circleA.radius - circleB.radius = d - (circleA.radius + circleB.radius)
    ring
  · intro hgt
    have hyes : b2_speculativeDistance < d - circleA.radius - circleB.radius := by linarith
    unfold b2CollideCircles
    simp only [if_pos hyes]
    rfl

/-- Witness for C4: unit-transform circles of radius 3 centered at (0,0)
and (3,4) are distance 5 apart and produce a single point of
separation −1. -/
theorem c4_collide_circles_separation_witness :
    (b2CollideCircles ⟨(0, 0), 3⟩ b2Transform_identity ⟨(3, 4), 3⟩
        b2Transform_identity 5).pointCount = 1 ∧
    ((b2CollideCircles ⟨(0, 0), 3⟩ b2Transform_identity ⟨(3, 4), 3⟩
        b2Transform_identity 5).points.getD 0 ⟨(0, 0), 0, 0⟩).separation = 5 - (3 + 3) := by
  have h := c4_collide_circles_separation ⟨(0, 0), 3⟩ ⟨(3, 4), 3⟩
    b2Transform_identity b2Transform_identity 5 (by norm_num)
    (by with_unfolding_all decide)
  have h1 := h.1 (by norm_num)
  exact ⟨h1.1, h1.2.1⟩

/-! ## Convex hulls (geometry group) -/

/-- A convex hull (`b2Hull`): the final point list; `count` is its
length, and an empty list is the explicit empty-hull failure result. -/
structure b2Hull where
  points : List b2Vec2
deriving DecidableEq, Repr

/-- The `count` field of a hull. -/
def b2Hull.count (h : b2Hull) : ℕ := h.points.length

/-- Lexicographic comparison of points, x major. -/
def lexLeB (p q : b2Vec2) : Bool := decide (p.1 < q.1 ∨ (p.1 = q.1 ∧ p.2 ≤ q.2))

/-- Insert into a list sorted by `le`. -/
def insertByB {α : Type} (le : α → α → Bool) (a : α) : List α → List α
  | [] => [a]
  | b :: l => if le a b then a :: b :: l else b :: insertByB le a l

/-- Insertion sort by `le`. -/
def sortByB {α : Type} (le : α → α → Bool) : List α → List α
  | [] => []
  | a :: l => insertByB le a (sortByB le l)

/-- Modelled from the spec: the point-welding tolerance of hull
construction (a fixed squared length tolerance; the hull procedure "welds
close points"). -/
def b2_weldToleranceSq : ℚ := b2_linearSlop * b2_linearSlop

/-- Modelled from the spec: welding — keep each point and drop every later
point within the weld tolerance of it. -/
def weldPoints : List b2Vec2 → List b2Vec2
  | [] => []
  | p :: rest =>
      p :: weldPoints (rest.filter fun q => decide (b2_weldToleranceSq < distSqV p q))
termination_by l => l.length
decreasing_by
  simp only [List.length_cons]
  exact Nat.lt_succ_of_le (List.length_filter_le _ _)

/-- Modelled from the spec: one step of the convexity scan — pop stack
points that fail to make a strict left turn with the incoming point, then
push it.  The stack holds the chain in reverse. -/
def hullStep (p : b2Vec2) : List b2Vec2 → List b2Vec2
  | [] => [p]
  | [b] => [p, b]
  | b :: a :: rest =>
      if crossV (b - a) (p - a) ≤ 0 then hullStep p (a :: rest) else p :: b :: a :: rest

/-- One monotone half chain over the given point order. -/
def halfHull (l : List b2Vec2) : List b2Vec2 :=
  (l.foldl (fun st p => hullStep p st) []).reverse

/-- Modelled from the spec: the hull of lexicographically sorted points as
the lower chain followed by the upper chain (monotone-chain scan with
strict turns, so collinear points are removed). -/
def monoChainHull (s : List b2Vec2) : List b2Vec2 :=
  (halfHull s).dropLast ++ (halfHull s.reverse).dropLast

/-- Modelled from the spec: the validity predicate of `b2ValidateHull` —
point count in [3, 8] and, for every directed edge, every other vertex
strictly to the left (convex, counter-clockwise, no collinear points). -/
def validHullPoints (ps : List b2Vec2) : Bool :=
  decide (3 ≤ ps.length ∧ ps.length ≤ 8 ∧
    ∀ i < ps.length, ∀ j < ps.length, j = i ∨ j = (i + 1) % ps.length ∨
      0 < crossV (ps.getD ((i + 1) % ps.length) (0, 0) - ps.getD i (0, 0))
        (ps.getD j (0, 0) - ps.getD i (0, 0)))

/-- `b2ValidateHull`: checks convexity and absence of collinear points. -/
def b2ValidateHull (h : b2Hull) : Bool := validHullPoints h.points

/-- Modelled from the spec: `b2ComputeHull` (body not in src) — reject
inputs with fewer than 3 or more than 8 points, weld close points, sort,
run the monotone-chain scan, and return the result only when it is a
valid hull; every failure yields the explicit empty hull, never a partial
one. -/
def b2ComputeHull (points : List b2Vec2) : b2Hull :=
  if points.length < 3 ∨ 8 < points.length then ⟨[]⟩
  else
    let w := weldPoints points
    let s := sortByB lexLeB w
    let raw := monoChainHull s
    if validHullPoints raw then ⟨raw⟩ else ⟨[]⟩

/-- The outward (clockwise) perpendicular of an edge vector of a
counter-clockwise polygon. -/
def perpCWV (v : b2Vec2) : b2Vec2 := (v.2, -v.1)

/-- The directed edge of a cyclic point list from vertex `i` to the next
vertex. -/
def edgeAt (ps : List b2Vec2) (i : ℕ) : b2Vec2 :=
  ps.getD ((i + 1) % ps.length) (0, 0) - ps.getD i (0, 0)

/-- Modelled from the spec: polygon centroid by the standard signed-area
weighted formula (`b2ComputePolygonCentroid`). -/
def polygonCentroid (ps : List b2Vec2) : b2Vec2 :=
  let n := ps.length
  let c2 := fun i => crossV (ps.getD i (0, 0)) (ps.getD ((i + 1) % n) (0, 0))
  let a2 := ((List.range n).map c2).sum
  if a2 = 0 then (0, 0)
  else
    smulV (1 / (3 * a2))
      (((List.range n).map fun i =>
        smulV (c2 i) (ps.getD i (0, 0) + ps.getD ((i + 1) % n) (0, 0))).sum)

/-- Modelled from the spec: `b2MakePolygon` (body not in src) — copy the
hull points, compute each edge's outward unit normal and the centroid.
The exact length of edge `i` is supplied in `lens`; theorems tie each
entry to its defining equation. -/
def b2MakePolygon (hull : b2Hull) (radius : ℚ) (lens : List ℚ) : b2Polygon :=
  { vertices := hull.points
    normals := (List.range hull.count).map fun i =>
      smulV (lens.getD i 1)⁻¹ (perpCWV (edgeAt hull.points i))
    centroid := polygonCentroid hull.points
    radius := radius }

/-! ### Hull lemmas -/

theorem mem_insertByB {α : Type} (le : α → α → Bool) (a x : α) :
    ∀ l : List α, (x ∈ insertByB le a l ↔ x = a ∨ x ∈ l)
  | [] => by simp [insertByB]
  | b :: l => by
      simp only [insertByB]
      split
      · simp [List.mem_cons]
      · simp only [List.mem_cons, mem_insertByB le a x l]
        tauto

theorem length_insertByB {α : Type} (le : α → α → Bool) (a : α) :
    ∀ l : List α, (insertByB le a l).length = l.length + 1
  | [] => by simp [insertByB]
  | b :: l => by
      simp only [insertByB]
      split
      · simp
      · simp [length_insertByB le a l]

theorem mem_sortByB {α : Type} (le : α → α → Bool) (x : α) :
    ∀ l : List α, (x ∈ sortByB le l ↔ x ∈ l)
  | [] => by simp [sortByB]
  | a :: l => by
      simp only [sortByB, mem_insertByB, List.mem_cons, mem_sortByB le x l]

theorem length_sortByB {α : Type} (le : α → α → Bool) :
    ∀ l : List α, (sortByB le l).length = l.length
  | [] => by simp [sortByB]
  | a :: l => by
      simp only [sortByB, length_insertByB, length_sortByB le l, List.length_cons]

theorem weldPoints_subset : ∀ l : List b2Vec2, ∀ x ∈ weldPoints l, x ∈ l
  | [] => by simp [weldPoints]
  | p :: rest => by
      intro x hx
      rw [weldPoints] at hx
      rcases List.mem_cons.mp hx with h | h
      · simp [h]
      · have := weldPoints_subset _ x h
        exact List.mem_cons_of_mem _ (List.mem_of_mem_filter this)
termination_by l => l.length
decreasing_by
  simp only [List.length_cons]
  exact Nat.lt_succ_of_le (List.length_filter_le _ _)

/-- When every other point is within the weld tolerance of the first,
welding keeps only the first point. -/
theorem weldPoints_close (p : b2Vec2) (rest : List b2Vec2)
    (h : ∀ q ∈ rest, ¬ b2_weldToleranceSq < distSqV p q) :
    weldPoints (p :: rest) = [p] := by
  rw [weldPoints]
  have : rest.filter (fun q => decide (b2_weldToleranceSq < distSqV p q)) = [] := by
    apply List.filter_eq_nil.mpr
    intro a ha
    simp [h a ha]
  rw [this, weldPoints]

theorem hullStep_length_le (p : b2Vec2) : ∀ st : List b2Vec2,
    (hullStep p st).length ≤ st.length + 1
  | [] => by simp [hullStep]
  | [b] => by simp [hullStep]
  | b :: a :: rest => by
      rw [hullStep]
      split
      · have := hullStep_length_le p (a :: rest)
        simp only [List.length_cons] at *
        omega
      · simp

theorem foldl_hullStep_length_le : ∀ (l : List b2Vec2) (st : List b2Vec2),
    (l.foldl (fun st p => hullStep p st) st).length ≤ st.length + l.length
  | [], st => by simp
  | p :: l, st => by
      simp only [List.foldl_cons, List.length_cons]
      have h1 := foldl_hullStep_length_le l (hullStep p st)
      have h2 := hullStep_length_le p st
      omega

theorem halfHull_length_le (l : List b2Vec2) : (halfHull l).length ≤ l.length := by
  have := foldl_hullStep_length_le l []
  simpa [halfHull] using this

/-- The chain of at most two points stays at three or fewer hull points. -/
theorem monoChainHull_short_of_len (s : List b2Vec2) (hs : s.length ≤ 2) :
    (monoChainHull s).length < 3 := by
  have h1 := halfHull_length_le s
  have h2 := halfHull_length_le s.reverse
  simp only [List.length_reverse] at h2
  simp only [monoChainHull, List.length_append, List.length_dropLast]
  omega

theorem hullStep_collinear_short (S : List b2Vec2)
    (hcol : ∀ p ∈ S, ∀ q ∈ S, ∀ r ∈ S, crossV (q - p) (r - p) = 0)
    (p : b2Vec2) (hp : p ∈ S) (st : List b2Vec2)
    (hmem : ∀ x ∈ st, x ∈ S) (hlen : st.length ≤ 2) :
    (hullStep p st).length ≤ 2 ∧ ∀ x ∈ hullStep p st, x ∈ S := by
  match st with
  | [] =>
      rw [hullStep]
      exact ⟨by simp, by intro x hx; simp at hx; simpa [hx]⟩
  | [b] =>
      rw [hullStep]
      constructor
      · simp
      · intro x hx
        rcases List.mem_cons.mp hx with h | h
        · simpa [h]
        · exact hmem x h
  | b :: a :: rest =>
      have hrest : rest = [] := by
        simp only [List.length_cons] at hlen
        have h0 : rest.length = 0 := by omega
        exact List.length_eq_zero.mp h0
      subst hrest
      have ha : a ∈ S := hmem a (by simp)
      have hb : b ∈ S := hmem b (by simp)
      have hc : crossV (b - a) (p - a) = 0 := hcol a ha b hb p hp
      rw [hullStep, if_pos (le_of_eq hc), hullStep]
      constructor
      · simp
      · intro x hx
        rcases List.mem_cons.mp hx with h | h
        · simpa [h]
        · rcases List.mem_cons.mp h with h2 | h2
          · simpa [h2]
          · simp at h2

theorem foldl_hullStep_collinear (S : List b2Vec2)
    (hcol : ∀ p ∈ S, ∀ q ∈ S, ∀ r ∈ S, crossV (q - p) (r - p) = 0) :
    ∀ (l : List b2Vec2), (∀ x ∈ l, x ∈ S) → ∀ (st : List b2Vec2),
      (∀ x ∈ st, x ∈ S) → st.length ≤ 2 →
      (l.foldl (fun st p => hullStep p st) st).length ≤ 2 ∧
        ∀ x ∈ l.foldl (fun st p => hullStep p st) st, x ∈ S
  | [], hl, st, hmem, hlen => by
      simp only [List.foldl_nil]
      exact ⟨hlen, hmem⟩
  | p :: l, hl, st, hmem, hlen => by
      simp only [List.foldl_cons]
      have hp : p ∈ S := hl p (by simp)
      have hstep := hullStep_collinear_short S hcol p hp st hmem hlen
      exact foldl_hullStep_collinear S hcol l
        (fun x hx => hl x (List.mem_cons_of_mem _ hx)) (hullStep p st) hstep.2 hstep.1

theorem monoChainHull_short_of_collinear (S : List b2Vec2)
    (hcol : ∀ p ∈ S, ∀ q ∈ S, ∀ r ∈ S, crossV (q - p) (r - p) = 0)
    (s : List b2Vec2) (hs : ∀ x ∈ s, x ∈ S) :
    (monoChainHull s).length < 3 := by
  have h1 := (foldl_hullStep_collinear S hcol s hs [] (by simp) (by simp)).1
  have h2 := (foldl_hullStep_collinear S hcol s.reverse
      (fun x hx => hs x (List.mem_reverse.mp hx)) [] (by simp) (by simp)).1
  simp only [monoChainHull, List.length_append, List.length_dropLast, halfHull,
    List.length_reverse]
  omega

theorem validHullPoints_short (ps : List b2Vec2) (h : ps.length < 3) :
    validHullPoints ps = false := by
  unfold validHullPoints
  apply decide_eq_false
  intro hc
  exact absurd hc.1 (by omega)

/-- C5: every degenerate input to `b2ComputeHull` — fewer than 3 points,
more than 8 points, all points within the weld tolerance of each other, or
all points collinear — produces the empty hull (count 0), never a partial
hull. -/
theorem c5_compute_hull_degenerate (pts : List b2Vec2)
    (h : pts.length < 3 ∨ 8 < pts.length ∨
      (∀ p ∈ pts, ∀ q ∈ pts, distSqV p q ≤ b2_weldToleranceSq) ∨
      (∀ p ∈ pts, ∀ q ∈ pts, ∀ r ∈ pts, crossV (q - p) (r - p) = 0)) :
    (b2ComputeHull pts).count = 0 := by
  unfold b2ComputeHull
  split
  · rfl
  next hlen =>
    have hshort : (monoChainHull (sortByB lexLeB (weldPoints pts))).length < 3 := by
      rcases h with h | h | h | h
      · exact absurd (Or.inl h) hlen
      · exact absurd (Or.inr h) hlen
      · match pts, hlen with
        | p :: rest, hlen =>
          have hw : weldPoints (p :: rest) = [p] := by
            apply weldPoints_close
            intro q hq
            exact not_lt.mpr (h p (by simp) q (List.mem_cons_of_mem _ hq))
          rw [hw]
          apply monoChainHull_short_of_len
          rw [length_sortByB]
          simp
        | [], hlen =>
          exact absurd (Or.inl (by simp)) hlen
      · exact monoChainHull_short_of_collinear pts h _
          (fun x hx => weldPoints_subset _ x ((mem_sortByB _ _ _).mp hx))
    have hval := validHullPoints_short _ hshort
    simp only [hval, Bool.false_eq_true, if_false]
    rfl

/-- Witness for C5: a two-point input yields the empty hull. -/
theorem c5_compute_hull_degenerate_witness :
    (b2ComputeHull [(0, 0), (1, 1)]).count = 0 :=
  c5_compute_hull_degenerate [(0, 0), (1, 1)] (Or.inl (by norm_num))

/-- `b2ComputeHull` output is either empty or passes the hull validity
check. -/
theorem computeHull_cases (pts : List b2Vec2) :
    (b2ComputeHull pts).points = [] ∨
      validHullPoints (b2ComputeHull pts).points = true := by
  unfold b2ComputeHull
  split
  · exact Or.inl rfl
  · dsimp only
    split
    next hv => exact Or.inr hv
    · exact Or.inl rfl

/-- A hull with at least three points passed the validity check. -/
theorem hull_valid_of_count (pts : List b2Vec2)
    (h3 : 3 ≤ (b2ComputeHull pts).count) :
    b2ValidateHull (b2ComputeHull pts) = true := by
  rcases computeHull_cases pts with h | h
  · have : (b2ComputeHull pts).count = 0 := by
      unfold b2Hull.count
      rw [h]
      rfl
    omega
  · exact h

/-- Unpacking the hull validity check. -/
theorem validHullPoints_spec (ps : List b2Vec2) (h : validHullPoints ps = true) :
    3 ≤ ps.length ∧ ps.length ≤ 8 ∧
    ∀ i < ps.length, ∀ j < ps.length, j ≠ i → j ≠ (i + 1) % ps.length →
      0 < crossV (ps.getD ((i + 1) % ps.length) (0, 0) - ps.getD i (0, 0))
        (ps.getD j (0, 0) - ps.getD i (0, 0)) := by
  have hp := of_decide_eq_true h
  obtain ⟨h3, h8, hall⟩ := hp
  refine ⟨h3, h8, ?_⟩
  intro i hi j hj hji hji1
  rcases hall i hi j hj with hc | hc | hc
  · exact absurd hc hji
  · exact absurd hc hji1
  · exact hc

theorem next_idx_ne (n i : ℕ) (h3 : 3 ≤ n) (hi : i < n) :
    ((i + 1) % n + 1) % n ≠ i ∧ ((i + 1) % n + 1) % n ≠ (i + 1) % n := by
  rcases Nat.lt_or_ge (i + 1) n with h1 | h1
  · rw [Nat.mod_eq_of_lt h1]
    rcases Nat.lt_or_ge (i + 1 + 1) n with h2 | h2
    · rw [Nat.mod_eq_of_lt h2]
      omega
    · have hn : i + 1 + 1 = n := by omega
      rw [hn, Nat.mod_self]
      omega
  · have hn : i + 1 = n := by omega
    rw [hn, Nat.mod_self, Nat.zero_add, Nat.mod_eq_of_lt (by omega : 1 < n)]
    omega

theorem crossV_edge_shift (a b c : b2Vec2) :
    crossV (b - a) (c - b) = crossV (b - a) (c - a) := by
  simp only [crossV, Prod.fst_sub, Prod.snd_sub]
  ring

/-- A valid hull turns strictly left at every consecutive vertex triple:
its vertices are in counter-clockwise convex position. -/
theorem validHull_ccw (ps : List b2Vec2) (h : validHullPoints ps = true) :
    ∀ i < ps.length,
      0 < crossV (edgeAt ps i) (edgeAt ps ((i + 1) % ps.length)) := by
  obtain ⟨h3, _h8, hs⟩ := validHullPoints_spec ps h
  intro i hi
  have hnpos : 0 < ps.length := by omega
  have hi1 : (i + 1) % ps.length < ps.length := Nat.mod_lt _ hnpos
  have hk : ((i + 1) % ps.length + 1) % ps.length < ps.length := Nat.mod_lt _ hnpos
  obtain ⟨hne1, hne2⟩ := next_idx_ne ps.length i h3 hi
  have h0 := hs i hi (((i + 1) % ps.length + 1) % ps.length) hk hne1 hne2
  unfold edgeAt
  rw [crossV_edge_shift]
  exact h0

theorem normSqV_smulV (q : ℚ) (v : b2Vec2) :
    normSqV (smulV q v) = q * q * normSqV v := by
  simp only [normSqV, dotV, smulV]
  ring

theorem normSqV_perpCWV (v : b2Vec2) : normSqV (perpCWV v) = normSqV v := by
  simp only [normSqV, dotV, perpCWV]
  ring

/-- The normal list entry `i` of `b2MakePolygon`. -/
theorem makePolygon_normal_getD (hull : b2Hull) (radius : ℚ) (lens : List ℚ)
    (i : ℕ) (hi : i < hull.count) :
    (b2MakePolygon hull radius lens).normals.getD i (0, 0) =
      smulV (lens.getD i 1)⁻¹ (perpCWV (edgeAt hull.points i)) := by
  unfold b2MakePolygon
  have hlen : i < ((List.range hull.count).map fun i =>
      smulV (lens.getD i 1)⁻¹ (perpCWV (edgeAt hull.points i))).length := by
    simpa using hi
  rw [List.getD_eq_getElem _ _ hlen]
  simp

/-- C6: for any input whose hull construction succeeds (count ≥ 3, the
spec's "at least 3 non-collinear, sufficiently separated points"), the
polygon `b2MakePolygon (b2ComputeHull pts)` has vertex count equal to the
hull count, unit-length normals (`lens` supplies the exact edge lengths),
counter-clockwise vertices (strict left turn at every consecutive edge
pair), and `b2ValidateHull` accepts the hull. -/
theorem c6_make_polygon_roundtrip (pts : List b2Vec2) (radius : ℚ) (lens : List ℚ)
    (h3 : 3 ≤ (b2ComputeHull pts).count)
    (hlens : ∀ i < (b2ComputeHull pts).count,
      0 < lens.getD i 1 ∧
        lens.getD i 1 * lens.getD i 1 = normSqV (edgeAt (b2ComputeHull pts).points i)) :
    (b2MakePolygon (b2ComputeHull pts) radius lens).count = (b2ComputeHull pts).count ∧
    (∀ i < (b2ComputeHull pts).count,
      normSqV ((b2MakePolygon (b2ComputeHull pts) radius lens).normals.getD i (0, 0)) = 1) ∧
    (∀ i < (b2ComputeHull pts).count,
      0 < crossV (edgeAt (b2ComputeHull pts).points i)
        (edgeAt (b2ComputeHull pts).points ((i + 1) % (b2ComputeHull pts).count))) ∧
    b2ValidateHull (b2ComputeHull pts) = true := by
  have hv := hull_valid_of_count pts h3
  refine ⟨rfl, ?_, ?_, hv⟩
  · intro i hi
    rw [makePolygon_normal_getD _ _ _ i hi, normSqV_smulV, normSqV_perpCWV]
    obtain ⟨hpos, hsq⟩ := hlens i hi
    rw [← hsq]
    have hne : lens.getD i 1 ≠ 0 := ne_of_gt hpos
    have hgen : ∀ x : ℚ, x ≠ 0 → x⁻¹ * x⁻¹ * (x * x) = 1 := by
      intro x hx
      field_simp
    exact hgen _ hne
  · intro i hi
    exact validHull_ccw _ hv i hi

/-- Witness for C6: the four corners of a square build a valid hull and a
polygon with unit normals (all edge lengths are 2). -/
theorem c6_make_polygon_roundtrip_witness :
    b2ValidateHull (b2ComputeHull [(0, 0), (2, 0), (2, 2), (0, 2)]) = true ∧
    (b2MakePolygon (b2ComputeHull [(0, 0), (2, 0), (2, 2), (0, 2)]) 0 [2, 2, 2, 2]).count =
      (b2ComputeHull [(0, 0), (2, 0), (2, 2), (0, 2)]).count := by
  have h := c6_make_polygon_roundtrip [(0, 0), (2, 0), (2, 2), (0, 2)] 0 [2, 2, 2, 2]
    (by with_unfolding_all decide) (by with_unfolding_all decide)
  exact ⟨h.2.2.2, h.1⟩

/-! ## Shape distance (distance group) -/

/-- A distance proxy (`b2ShapeProxy`): a point cloud with an external
radius. -/
structure b2ShapeProxy where
  points : List b2Vec2
  radius : ℚ
deriving DecidableEq, Repr

/-- The GJK warm-start cache (`b2SimplexCache`).  The model's distance
result does not depend on it; it is threaded to state that independence. -/
structure b2SimplexCache where
  count : ℕ
  indexA : List ℕ
  indexB : List ℕ
deriving DecidableEq, Repr

/-- The zero-initialized (cold) cache. -/
def b2SimplexCache.empty : b2SimplexCache := ⟨0, [], []⟩

/-- A proxy's point cloud in world space. -/
def transformedPoints (pr : b2ShapeProxy) (T : b2Transform) : List b2Vec2 :=
  pr.points.map (b2TransformPoint T)

/-- The Minkowski-difference point cloud `{b − a}`, oriented from A
to B. -/
def minkowskiPoints (la lb : List b2Vec2) : List b2Vec2 :=
  la.flatMap fun a => lb.map fun b => b - a

/-- Closest point to the origin on the segment from `p` to `q`. -/
def closestOnSeg0 (p q : b2Vec2) : b2Vec2 :=
  let d := q - p
  let dd := normSqV d
  if dd = 0 then p else p + smulV (clampQ (-(dotV p d) / dd) 0 1) d

/-- Sign test deciding whether the origin lies in a triangle, given the
triangle's orientation `d`, the three edge cross products with the origin,
and (for the degenerate flat case) the cross/dot data of the three
origin-to-vertex segments. -/
def triTest (d s1 s2 s3 cab dab cbc dbc cac dac : ℚ) : Bool :=
  if d = 0 then
    decide ((cab = 0 ∧ dab ≤ 0) ∨ (cbc = 0 ∧ dbc ≤ 0) ∨ (cac = 0 ∧ dac ≤ 0))
  else
    decide ((0 < d ∧ 0 ≤ s1 ∧ 0 ≤ s2 ∧ 0 ≤ s3) ∨ (d < 0 ∧ s1 ≤ 0 ∧ s2 ≤ 0 ∧ s3 ≤ 0))

/-- Does the (possibly degenerate) triangle `a b c` contain the origin? -/
def triContains0 (a b c : b2Vec2) : Bool :=
  triTest (crossV (b - a) (c - a)) (crossV (b - a) (-a)) (crossV (c - b) (-b))
    (crossV (a - c) (-c)) (crossV a b) (dotV a b) (crossV b c) (dotV b c)
    (crossV a c) (dotV a c)

/-- Does the convex hull of the point cloud contain the origin?  (By
Carathéodory's theorem, some triangle of cloud points does.) -/
def originInHull (W : List b2Vec2) : Bool :=
  W.any fun a => W.any fun b => W.any fun c => triContains0 a b c

/-- The candidate closest points: for every pair of cloud points, the
closest point of their segment to the origin (the closest point of the
hull lies on such a two-point face when the origin is outside). -/
def segCandsFinset (W : List b2Vec2) : Finset b2Vec2 :=
  (W.flatMap fun p => W.map fun q => closestOnSeg0 p q).toFinset

/-- The squared distance from the origin to the hull of the cloud (for a
cloud whose hull misses the origin). -/
def minNormSq (W : List b2Vec2) : ℚ :=
  ((segCandsFinset W).image normSqV).min.untop' 0

/-- The separating vector: the candidate(s) of least squared norm.  The
minimum-norm point of a convex set is unique, so the achieving set is
geometrically a singleton and the sum below is that vector. -/
def bestDir (W : List b2Vec2) : b2Vec2 :=
  ((segCandsFinset W).filter fun v => normSqV v = minNormSq W).sum id

/-- Output of `b2ShapeDistance`.  The C struct's `distance` field equals
`max 0 (√distanceSq − radiiSum)` and its unit `normal` is
`normalDir / ‖normalDir‖`; the model exposes the square-root-free data
that determine them.  `normalDir = 0` when the point clouds overlap, where
the C documentation declares the normal invalid. -/
structure b2DistanceOutput where
  distanceSq : ℚ
  radiiSum : ℚ
  normalDir : b2Vec2
deriving DecidableEq, Repr

/-- Modelled from the spec: `b2ShapeDistance` (body not in src) — the GJK
engine computes the closest points between the two transformed convex
point clouds; the model returns the exact squared cloud distance and
separating direction of the Minkowski difference, with the summed radii
to be subtracted when `useRadii` is set.  The warm-start `cache` only
accelerates the iteration and never changes the result, so the model
ignores it. -/
def b2ShapeDistance (proxyA : b2ShapeProxy) (transformA : b2Transform)
    (proxyB : b2ShapeProxy) (transformB : b2Transform) (useRadii : Bool)
    (cache : b2SimplexCache) : b2DistanceOutput :=
  let W := minkowskiPoints (transformedPoints proxyA transformA)
      (transformedPoints proxyB transformB)
  let rs := if useRadii then proxyA.radius + proxyB.radius else 0
  if originInHull W then { distanceSq := 0, radiiSum := rs, normalDir := (0, 0) }
  else { distanceSq := minNormSq W, radiiSum := rs, normalDir := bestDir W }

/-! ### Distance symmetry lemmas -/

theorem normSqV_neg (v : b2Vec2) : normSqV (-v) = normSqV v := by
  simp only [normSqV, dotV, Prod.fst_neg, Prod.snd_neg]
  ring

theorem smulV_neg_right (t : ℚ) (v : b2Vec2) : smulV t (-v) = -smulV t v := by
  simp only [smulV, Prod.fst_neg, Prod.snd_neg, Prod.ext_iff, Prod.neg_mk]
  constructor <;> ring

theorem closestOnSeg0_neg (p q : b2Vec2) :
    closestOnSeg0 (-p) (-q) = -closestOnSeg0 p q := by
  simp only [closestOnSeg0]
  have hd : -q - -p = -(q - p) := by ring
  have hdot : dotV (-p) (-(q - p)) = dotV p (q - p) := by
    simp only [dotV, Prod.fst_neg, Prod.snd_neg]
    ring
  rw [hd, normSqV_neg, hdot]
  split
  · rfl
  · rw [smulV_neg_right]
    ring

theorem mem_minkowskiPoints (la lb : List b2Vec2) (x : b2Vec2) :
    x ∈ minkowskiPoints la lb ↔ ∃ a ∈ la, ∃ b ∈ lb, x = b - a := by
  simp only [minkowskiPoints, List.mem_flatMap, List.mem_map]
  constructor
  · rintro ⟨a, ha, b, hb, rfl⟩
    exact ⟨a, ha, b, hb, rfl⟩
  · rintro ⟨a, ha, b, hb, rfl⟩
    exact ⟨a, ha, b, hb, rfl⟩

theorem mem_minkowskiPoints_swap (la lb : List b2Vec2) (x : b2Vec2) :
    x ∈ minkowskiPoints lb la ↔ -x ∈ minkowskiPoints la lb := by
  rw [mem_minkowskiPoints, mem_minkowskiPoints]
  constructor
  · rintro ⟨b, hb, a, ha, rfl⟩
    exact ⟨a, ha, b, hb, by ring⟩
  · rintro ⟨a, ha, b, hb, hx⟩
    exact ⟨b, hb, a, ha, by
      have : x = -(b - a) := by
        rw [← hx]
        ring
      rw [this]
      ring⟩

theorem triContains0_neg (a b c : b2Vec2) :
    triContains0 (-a) (-b) (-c) = triContains0 a b c := by
  unfold triContains0
  congr 1 <;>
    (simp only [crossV, dotV, Prod.fst_neg, Prod.snd_neg, Prod.fst_sub, Prod.snd_sub]) <;>
    ring

theorem originInHull_eq_true_iff (W : List b2Vec2) :
    originInHull W = true ↔
      ∃ a ∈ W, ∃ b ∈ W, ∃ c ∈ W, triContains0 a b c = true := by
  simp only [originInHull, List.any_eq_true]

theorem originInHull_swap (la lb : List b2Vec2) :
    originInHull (minkowskiPoints lb la) = originInHull (minkowskiPoints la lb) := by
  have key : ∀ X Y : List b2Vec2, (∀ x, x ∈ X → -x ∈ Y) →
      originInHull X = true → originInHull Y = true := by
    intro X Y hmem hX
    rw [originInHull_eq_true_iff] at hX ⊢
    obtain ⟨a, ha, b, hb, c, hc, htri⟩ := hX
    refine ⟨-a, hmem a ha, -b, hmem b hb, -c, hmem c hc, ?_⟩
    rw [triContains0_neg]
    exact htri
  have h1 : ∀ x, x ∈ minkowskiPoints lb la → -x ∈ minkowskiPoints la lb :=
    fun x hx => (mem_minkowskiPoints_swap la lb x).mp hx
  have h2 : ∀ x, x ∈ minkowskiPoints la lb → -x ∈ minkowskiPoints lb la := by
    intro x hx
    rw [mem_minkowskiPoints_swap]
    simpa using hx
  cases hL : originInHull (minkowskiPoints lb la)
  · cases hR : originInHull (minkowskiPoints la lb)
    · rfl
    · have := key _ _ h2 hR
      rw [hL] at this
      exact this
  · exact (key _ _ h1 hL).symm

theorem segCandsFinset_swap (la lb : List b2Vec2) :
    segCandsFinset (minkowskiPoints lb la) =
      (segCandsFinset (minkowskiPoints la lb)).image Neg.neg := by
  ext v
  simp only [segCandsFinset, List.mem_toFinset, Finset.mem_image, List.mem_flatMap,
    List.mem_map]
  constructor
  · rintro ⟨p, hp, q, hq, rfl⟩
    refine ⟨closestOnSeg0 (-p) (-q), ⟨-p, (mem_minkowskiPoints_swap la lb p).mp hp,
      -q, (mem_minkowskiPoints_swap la lb q).mp hq, rfl⟩, ?_⟩
    rw [closestOnSeg0_neg]
    ring
  · rintro ⟨w, ⟨p, hp, q, hq, rfl⟩, rfl⟩
    refine ⟨-p, ?_, -q, ?_, ?_⟩
    · rw [mem_minkowskiPoints_swap]
      simpa using hp
    · rw [mem_minkowskiPoints_swap]
      simpa using hq
    · rw [closestOnSeg0_neg]

theorem minNormSq_swap (la lb : List b2Vec2) :
    minNormSq (minkowskiPoints lb la) = minNormSq (minkowskiPoints la lb) := by
  unfold minNormSq
  rw [segCandsFinset_swap, Finset.image_image]
  have : normSqV ∘ Neg.neg = normSqV := by
    funext x
    exact normSqV_neg x
  rw [this]

theorem bestDir_swap (la lb : List b2Vec2) :
    bestDir (minkowskiPoints lb la) = -bestDir (minkowskiPoints la lb) := by
  unfold bestDir
  rw [segCandsFinset_swap, minNormSq_swap, Finset.filter_image]
  rw [Finset.sum_image (by
    intro x _ y _ h
    exact neg_injective h)]
  have hpred : Finset.filter
      (fun a => normSqV (-a) = minNormSq (minkowskiPoints la lb))
      (segCandsFinset (minkowskiPoints la lb)) =
      Finset.filter (fun v => normSqV v = minNormSq (minkowskiPoints la lb))
      (segCandsFinset (minkowskiPoints la lb)) := by
    apply Finset.filter_congr
    intro x _
    simp [normSqV_neg]
  rw [hpred]
  simp only [id_eq]
  exact Finset.sum_neg_distrib

/-- C2: `b2ShapeDistance` is symmetric in its two shapes — the swapped
call returns the same squared distance and radii sum (hence the same
scalar distance) and the reversed separating direction (hence the
reversed normal), for every cache state on either side. -/
theorem c2_shape_distance_symmetric (proxyA proxyB : b2ShapeProxy)
    (transformA transformB : b2Transform) (useRadii : Bool)
    (cacheAB cacheBA : b2SimplexCache) :
    (b2ShapeDistance proxyB transformB proxyA transformA useRadii cacheBA).distanceSq =
      (b2ShapeDistance proxyA transformA proxyB transformB useRadii cacheAB).distanceSq ∧
    (b2ShapeDistance proxyB transformB proxyA transformA useRadii cacheBA).radiiSum =
      (b2ShapeDistance proxyA transformA proxyB transformB useRadii cacheAB).radiiSum ∧
    (b2ShapeDistance proxyB transformB proxyA transformA useRadii cacheBA).normalDir =
      -(b2ShapeDistance proxyA transformA proxyB transformB useRadii cacheAB).normalDir := by
  simp only [b2ShapeDistance]
  rw [originInHull_swap]
  have hrs : (if useRadii then proxyB.radius + proxyA.radius else 0) =
      (if useRadii then proxyA.radius + proxyB.radius else 0) := by
    cases useRadii <;> simp [add_comm]
  split
  · refine ⟨rfl, hrs, ?_⟩
    show ((0 : ℚ), (0 : ℚ)) = -((0 : ℚ), (0 : ℚ))
    norm_num [Prod.ext_iff]
  · exact ⟨minNormSq_swap _ _, hrs, bestDir_swap _ _⟩

/-! ## Linear shape cast (distance group) -/

/-- Input for `b2ShapeCast` (`b2ShapeCastPairInput`). -/
structure b2ShapeCastPairInput where
  proxyA : b2ShapeProxy
  proxyB : b2ShapeProxy
  transformA : b2Transform
  transformB : b2Transform
  translationB : b2Vec2
  maxFraction : ℚ
  canEncroach : Bool
deriving DecidableEq, Repr

/-- Translate a transform by a world-space offset. -/
def translateT (T : b2Transform) (v : b2Vec2) : b2Transform := ⟨T.p + v, T.q⟩

/-- The squared cloud distance of the two proxies with shape B advanced to
fraction `t` of the cast translation. -/
def castDistSqAt (input : b2ShapeCastPairInput) (t : ℚ) : ℚ :=
  (b2ShapeDistance input.proxyA input.transformA input.proxyB
    (translateT input.transformB (smulV t input.translationB)) false
    b2SimplexCache.empty).distanceSq

/-- Modelled from the spec: the conservative-advancement loop of
`b2ShapeCast` — evaluate the cloud distance at the current fraction,
report a hit when it is within the target separation, otherwise advance by
a positive fraction and repeat up to a fixed iteration cap.  The C step
divides the remaining distance by the approach speed; this rational
surrogate uses a square-root-free positive step, which preserves the
branch structure the theorems below examine. -/
def shapeCastLoop (input : b2ShapeCastPairInput) (targetSq : ℚ) :
    ℕ → ℚ → b2CastOutput
  | 0, _ => b2CastOutput.miss
  | fuel + 1, t =>
      if input.maxFraction < t then b2CastOutput.miss
      else if castDistSqAt input t ≤ targetSq then
        { normal := (0, 0), point := (0, 0), fraction := t, hit := true }
      else
        shapeCastLoop input targetSq fuel
          (t + (castDistSqAt input t - targetSq) / (normSqV input.translationB + 1))

/-- Modelled from the spec: `b2ShapeCast` (body not in src) — shapes
already touching at fraction 0 (cloud distance within the summed radii)
are reported as a miss; with `canEncroach` set and a positive minimum
radius, the target separation is reduced by the smaller radius (the
"radius budget"), allowing a cast that starts slightly touching to
proceed; otherwise the conservative-advancement loop runs. -/
def b2ShapeCast (input : b2ShapeCastPairInput) : b2CastOutput :=
  let rA := input.proxyA.radius
  let rB := input.proxyB.radius
  let rSum := rA + rB
  let target :=
    if input.canEncroach = true ∧ 0 < min rA rB then rSum - min rA rB else rSum
  if castDistSqAt input 0 ≤ target * target then b2CastOutput.miss
  else shapeCastLoop input (target * target) 20 0

/-- C7: a cast whose proxies already touch at fraction 0 (cloud distance
at most the summed radii) reports a miss — unless `canEncroach` is set
with a positive minimum radius; and even then the cast is still a miss
when the initial overlap exceeds the radius budget (cloud distance within
`rSum − min rA rB`). -/
theorem c7_shapecast_initial_touch_miss (input : b2ShapeCastPairInput)
    (htouch : castDistSqAt input 0 ≤
      (input.proxyA.radius + input.proxyB.radius) *
        (input.proxyA.radius + input.proxyB.radius)) :
    (input.canEncroach = false ∨ min input.proxyA.radius input.proxyB.radius ≤ 0 →
      (b2ShapeCast input).hit = false) ∧
    (castDistSqAt input 0 ≤
        (input.proxyA.radius + input.proxyB.radius -
          min input.proxyA.radius input.proxyB.radius) *
        (input.proxyA.radius + input.proxyB.radius -
          min input.proxyA.radius input.proxyB.radius) →
      (b2ShapeCast input).hit = false) := by
  constructor
  · intro hc
    have hnc : ¬ (input.canEncroach = true ∧
        0 < min input.proxyA.radius input.proxyB.radius) := by
      rintro ⟨h1, h2⟩
      rcases hc with hc | hc
      · rw [h1] at hc
        exact Bool.noConfusion hc
      · exact absurd h2 (not_lt.mpr hc)
    simp only [b2ShapeCast, if_neg hnc, if_pos htouch]
    rfl
  · intro hdeep
    by_cases hcond : input.canEncroach = true ∧
        0 < min input.proxyA.radius input.proxyB.radius
    · simp only [b2ShapeCast, if_pos hcond, if_pos hdeep]
      rfl
    · simp only [b2ShapeCast, if_neg hcond, if_pos htouch]
      rfl

/-- Witness for C7: two unit-radius point proxies exactly touching at
distance 2, cast without encroachment, report a miss. -/
theorem c7_shapecast_initial_touch_miss_witness :
    (b2ShapeCast ⟨⟨[(0, 0)], 1⟩, ⟨[(2, 0)], 1⟩, b2Transform_identity,
      b2Transform_identity, (1, 0), 1, false⟩).hit = false :=
  (c7_shapecast_initial_touch_miss ⟨⟨[(0, 0)], 1⟩, ⟨[(2, 0)], 1⟩,
      b2Transform_identity, b2Transform_identity, (1, 0), 1, false⟩
    (by with_unfolding_all decide)).1 (Or.inl rfl)

/-! ## Mover plane solver (character group) -/

/-- A half-space constraint (`b2Plane`): unit normal and offset. -/
structure b2Plane where
  normal : b2Vec2
  offset : ℚ
deriving DecidableEq, Repr

/-- Signed separation of a point from a plane (`b2PlaneSeparation`):
nonnegative on the allowed side. -/
def b2PlaneSeparation (pl : b2Plane) (p : b2Vec2) : ℚ := dotV pl.normal p - pl.offset

/-- A collision plane for the mover solver (`b2CollisionPlane`). -/
structure b2CollisionPlane where
  plane : b2Plane
  pushLimit : ℚ
  push : ℚ
  clipVelocity : Bool
deriving DecidableEq, Repr

/-- Result of `b2SolvePlanes` (`b2PlaneSolverResult`). -/
structure b2PlaneSolverResult where
  translation : b2Vec2
  iterationCount : ℕ
deriving DecidableEq, Repr

/-- Modelled from the spec: the solver's numerical tolerance (a small
length; one linear slop). -/
def b2_planeSolverTolerance : ℚ := b2_linearSlop

/-- Modelled from the spec: the solver's fixed iteration cap. -/
def b2_planeSolverMaxIters : ℕ := 20

/-- Modelled from the spec: one plane relaxation — project the current
position onto the violated plane by adjusting this plane's accumulated
push, clamped into `[0, pushLimit]`. -/
def planeStep (acc : b2Vec2 × List b2CollisionPlane) (cp : b2CollisionPlane) :
    b2Vec2 × List b2CollisionPlane :=
  let pos := acc.1
  let s := b2PlaneSeparation cp.plane pos
  let newPush := clampQ (cp.push - s) 0 cp.pushLimit
  (pos + smulV (newPush - cp.push) cp.plane.normal, acc.2 ++ [{ cp with push := newPush }])

/-- One Gauss–Seidel pass over all planes. -/
def solvePlanesPass (pos : b2Vec2) (planes : List b2CollisionPlane) :
    b2Vec2 × List b2CollisionPlane :=
  planes.foldl planeStep (pos, [])

/-- Are all planes within tolerance at this position? -/
def planesSatisfied (pos : b2Vec2) (planes : List b2CollisionPlane) : Bool :=
  planes.all fun cp => decide (-b2_planeSolverTolerance ≤ b2PlaneSeparation cp.plane pos)

/-- Modelled from the spec: the iteration of `b2SolvePlanes` — repeat the
relaxation pass until no plane is violated beyond tolerance or the
iteration cap is reached; hitting the cap is not an error and yields the
best effort found. -/
def solvePlanesLoop : ℕ → ℕ → b2Vec2 → List b2CollisionPlane →
    b2Vec2 × ℕ × List b2CollisionPlane
  | 0, k, pos, planes => (pos, k, planes)
  | fuel + 1, k, pos, planes =>
      if planesSatisfied pos planes then (pos, k, planes)
      else
        let st := solvePlanesPass pos planes
        solvePlanesLoop fuel (k + 1) st.1 st.2

/-- Modelled from the spec: `b2SolvePlanes` (body not in src) — iterative
projection of the desired displacement against the collision planes. -/
def b2SolvePlanes (targetDelta : b2Vec2) (planes : List b2CollisionPlane) :
    b2PlaneSolverResult :=
  let r := solvePlanesLoop b2_planeSolverMaxIters 0 targetDelta planes
  { translation := r.1, iterationCount := r.2.1 }

/-! ### Plane solver lemmas -/

theorem solvePlanesPass_foldl_map :
    ∀ (planes : List b2CollisionPlane) (pos : b2Vec2) (acc : List b2CollisionPlane),
      ((planes.foldl planeStep (pos, acc)).2).map (fun cp => (cp.plane, cp.clipVelocity)) =
        acc.map (fun cp => (cp.plane, cp.clipVelocity)) ++
          planes.map (fun cp => (cp.plane, cp.clipVelocity))
  | [], pos, acc => by simp
  | cp :: rest, pos, acc => by
      simp only [List.foldl_cons, List.map_cons]
      rw [show planeStep (pos, acc) cp =
        ((planeStep (pos, acc) cp).1, (planeStep (pos, acc) cp).2) from rfl]
      rw [solvePlanesPass_foldl_map rest _ _]
      rw [show ((planeStep (pos, acc) cp).2).map (fun c => (c.plane, c.clipVelocity)) =
        acc.map (fun c => (c.plane, c.clipVelocity)) ++ [(cp.plane, cp.clipVelocity)] by
          simp [planeStep]]
      simp

theorem solvePlanesLoop_map (fuel : ℕ) :
    ∀ (k : ℕ) (pos : b2Vec2) (planes : List b2CollisionPlane),
      ((solvePlanesLoop fuel k pos planes).2.2).map (fun cp => (cp.plane, cp.clipVelocity)) =
        planes.map (fun cp => (cp.plane, cp.clipVelocity)) := by
  induction fuel with
  | zero => intro k pos planes; rfl
  | succ n ih =>
      intro k pos planes
      rw [solvePlanesLoop]
      split
      · rfl
      · rw [ih]
        have := solvePlanesPass_foldl_map planes pos []
        simpa [solvePlanesPass] using this

theorem solvePlanesLoop_exit (fuel : ℕ) :
    ∀ (k : ℕ) (pos : b2Vec2) (planes : List b2CollisionPlane),
      (solvePlanesLoop fuel k pos planes).2.1 = k + fuel ∨
        planesSatisfied (solvePlanesLoop fuel k pos planes).1
          (solvePlanesLoop fuel k pos planes).2.2 = true := by
  induction fuel with
  | zero => intro k pos planes; left; rfl
  | succ n ih =>
      intro k pos planes
      rw [solvePlanesLoop]
      split
      next hsat => exact Or.inr hsat
      · rcases ih (k + 1) (solvePlanesPass pos planes).1 (solvePlanesPass pos planes).2
            with h | h
        · left
          rw [h]
          omega
        · exact Or.inr h

/-- C8 (amended): whenever `b2SolvePlanes` terminates before its iteration
cap — that is, the relaxation converged — the returned translation
violates no `clipVelocity = true` plane by more than the solver
tolerance.  (When the cap is hit the result is the best effort found and
may still violate planes; see the counterexample.) -/
theorem c8_solve_planes_tolerance_amended (targetDelta : b2Vec2)
    (planes : List b2CollisionPlane)
    (hconv : (b2SolvePlanes targetDelta planes).iterationCount < b2_planeSolverMaxIters) :
    ∀ cp ∈ planes, cp.clipVelocity = true →
      -b2_planeSolverTolerance ≤
        b2PlaneSeparation cp.plane (b2SolvePlanes targetDelta planes).translation := by
  intro cp hcp _hclip
  rcases solvePlanesLoop_exit b2_planeSolverMaxIters 0 targetDelta planes with h | h
  · exfalso
    have heq : (b2SolvePlanes targetDelta planes).iterationCount = b2_planeSolverMaxIters := by
      unfold b2SolvePlanes
      simpa using h
    omega
  · have hmap := solvePlanesLoop_map b2_planeSolverMaxIters 0 targetDelta planes
    have hmem : (cp.plane, cp.clipVelocity) ∈
        ((solvePlanesLoop b2_planeSolverMaxIters 0 targetDelta planes).2.2).map
          (fun cp => (cp.plane, cp.clipVelocity)) := by
      rw [hmap]
      exact List.mem_map_of_mem _ hcp
    obtain ⟨cp2, hcp2, hproj⟩ := List.mem_map.mp hmem
    have hsep := of_decide_eq_true (List.all_eq_true.mp h cp2 hcp2)
    have hpl : cp2.plane = cp.plane := congrArg Prod.fst hproj
    unfold b2SolvePlanes
    dsimp only
    rw [← hpl]
    exact hsep

/-- Witness for the amended C8: a single already-satisfied plane converges
in zero iterations and is respected. -/
theorem c8_solve_planes_tolerance_amended_witness :
    -b2_planeSolverTolerance ≤
      b2PlaneSeparation (⟨(1, 0), 0⟩ : b2Plane)
        (b2SolvePlanes (1, 0) [⟨⟨(1, 0), 0⟩, 1, 0, true⟩]).translation :=
  c8_solve_planes_tolerance_amended (1, 0) [⟨⟨(1, 0), 0⟩, 1, 0, true⟩]
    (by with_unfolding_all decide) ⟨⟨(1, 0), 0⟩, 1, 0, true⟩ (by simp) rfl

/-- Counterexample to C8 as stated: the planes `x ≥ 0` and
`−(24/25)x + (7/25)y ≥ 0` are consistent (the point (7,25) strictly
satisfies both) and both are marked `clipVelocity = true` with an
essentially unbounded push limit — yet for the large desired displacement
(10⁶, −10⁶) the solver exhausts its iteration cap and returns a
translation that still violates the first plane by far more than the
tolerance. -/
theorem c8_solve_planes_tolerance_counterexample :
    (0 < b2PlaneSeparation ⟨(1, 0), 0⟩ (7, 25) ∧
      0 < b2PlaneSeparation ⟨(-24 / 25, 7 / 25), 0⟩ (7, 25)) ∧
    b2PlaneSeparation ⟨(1, 0), 0⟩
        (b2SolvePlanes (1000000, -1000000)
          [⟨⟨(1, 0), 0⟩, 1000000000, 0, true⟩,
            ⟨⟨(-24 / 25, 7 / 25), 0⟩, 1000000000, 0, true⟩]).translation <
      -b2_planeSolverTolerance := by
  with_unfolding_all decide

/-! ## Segment distance (distance group) -/

/-- Result of `b2SegmentDistance` (`b2SegmentDistanceResult`). -/
structure b2SegmentDistanceResult where
  closest1 : b2Vec2
  closest2 : b2Vec2
  fraction1 : ℚ
  fraction2 : ℚ
  distanceSquared : ℚ
deriving DecidableEq, Repr

/-- Modelled from the spec: the clamped fractions of the closest-point
computation between two segments (`b2SegmentDistance`, body not in src) —
solve the two-variable least-squares system on the unit square, clamping
at the end points as needed, with the standard re-clamping of the first
fraction when the second clamps (Ericson's closest-point-of-two-segments
procedure); degenerate (zero-length) segments reduce to point
projections. -/
def segFractions (a b c u v : ℚ) : ℚ × ℚ :=
  if a = 0 ∧ c = 0 then (0, 0)
  else if a = 0 then (0, clampQ (v / c) 0 1)
  else if c = 0 then (clampQ (-u / a) 0 1, 0)
  else
    let denom := a * c - b * b
    let f1a := if denom = 0 then 0 else clampQ ((b * v - u * c) / denom) 0 1
    let f2a := (b * f1a + v) / c
    if f2a < 0 then (clampQ (-u / a) 0 1, 0)
    else if 1 < f2a then (clampQ ((b - u) / a) 0 1, 1)
    else (f1a, f2a)

/-- Modelled from the spec: `b2SegmentDistance` — closest points of two
segments, clamping at the end points if needed, returning the barycentric
fractions, the closest points and their squared distance. -/
def b2SegmentDistance (p1 q1 p2 q2 : b2Vec2) : b2SegmentDistanceResult :=
  let d1 := q1 - p1
  let d2 := q2 - p2
  let r := p1 - p2
  let fr := segFractions (dotV d1 d1) (dotV d1 d2) (dotV d2 d2) (dotV r d1) (dotV r d2)
  let c1 := p1 + smulV fr.1 d1
  let c2 := p2 + smulV fr.2 d2
  { closest1 := c1, closest2 := c2, fraction1 := fr.1, fraction2 := fr.2,
    distanceSquared := distSqV c1 c2 }

/-! ### Convex-optimality lemmas for the segment distance -/

theorem clampQ_mem01 (x : ℚ) : 0 ≤ clampQ x 0 1 ∧ clampQ x 0 1 ≤ 1 := by
  unfold clampQ
  constructor
  · exact le_max_left 0 _
  · exact max_le (by norm_num) (min_le_right x 1)

theorem clampQ_cases (x : ℚ) :
    (clampQ x 0 1 = 0 ∧ x ≤ 0) ∨ (clampQ x 0 1 = 1 ∧ 1 ≤ x) ∨
      (clampQ x 0 1 = x ∧ 0 ≤ x ∧ x ≤ 1) := by
  unfold clampQ
  rcases le_total x 0 with h | h
  · exact Or.inl ⟨by rw [min_eq_left (h.trans zero_le_one), max_eq_left h], h⟩
  · rcases le_total 1 x with h1 | h1
    · exact Or.inr (Or.inl ⟨by rw [min_eq_right h1, max_eq_right zero_le_one], h1⟩)
    · exact Or.inr (Or.inr ⟨by rw [min_eq_left h1, max_eq_right h], h, h1⟩)

/-- The one-dimensional clamped projection satisfies the box first-order
conditions for `g(f) = u + f a`. -/
theorem clamp1d_kkt (a u : ℚ) (ha : 0 < a) :
    (clampQ (-u / a) 0 1 = 0 → 0 ≤ u + clampQ (-u / a) 0 1 * a) ∧
    (clampQ (-u / a) 0 1 = 1 → u + clampQ (-u / a) 0 1 * a ≤ 0) ∧
    (0 < clampQ (-u / a) 0 1 → clampQ (-u / a) 0 1 < 1 →
      u + clampQ (-u / a) 0 1 * a = 0) := by
  rcases clampQ_cases (-u / a) with ⟨hf, hx⟩ | ⟨hf, hx⟩ | ⟨hf, hx0, hx1⟩
  · rw [hf]
    have hu : 0 ≤ u := by
      have := (div_nonpos_iff.mp hx)
      rcases this with ⟨h1, h2⟩ | ⟨h1, h2⟩
      · linarith
      · linarith
    exact ⟨fun _ => by linarith, fun h1 => by norm_num at h1, fun h0 => by norm_num at h0⟩
  · rw [hf]
    have hu : u + a ≤ 0 := by
      have := (le_div_iff ha).mp hx
      linarith
    exact ⟨fun h0 => by norm_num at h0, fun _ => by linarith, fun _ h1 => by norm_num at h1⟩
  · rw [hf]
    have hroot : u + -u / a * a = 0 := by
      field_simp
    exact ⟨fun h0 => by rw [h0] at hroot ⊢; linarith, fun h1 => by rw [h1] at hroot ⊢; linarith,
      fun _ _ => hroot⟩

/-- Box first-order conditions imply global minimality of a convex
quadratic `Q(s,t) = 2su − 2tv + s²a + t²c − 2stb` on the unit square. -/
theorem kkt_min (a b c u v f1 f2 s t : ℚ)
    (ha : 0 ≤ a) (hc : 0 ≤ c) (hd : 0 ≤ a * c - b * b)
    (hf1 : 0 ≤ f1) (hf1b : f1 ≤ 1) (hf2 : 0 ≤ f2) (hf2b : f2 ≤ 1)
    (hs : 0 ≤ s) (hsb : s ≤ 1) (ht : 0 ≤ t) (htb : t ≤ 1)
    (hg10 : f1 = 0 → 0 ≤ u + f1 * a - f2 * b)
    (hg11 : f1 = 1 → u + f1 * a - f2 * b ≤ 0)
    (hg1i : 0 < f1 → f1 < 1 → u + f1 * a - f2 * b = 0)
    (hg20 : f2 = 0 → 0 ≤ f2 * c - f1 * b - v)
    (hg21 : f2 = 1 → f2 * c - f1 * b - v ≤ 0)
    (hg2i : 0 < f2 → f2 < 1 → f2 * c - f1 * b - v = 0) :
    2*f1*u - 2*f2*v + f1*f1*a + f2*f2*c - 2*f1*f2*b ≤
      2*s*u - 2*t*v + s*s*a + t*t*c - 2*s*t*b := by
  have hterm1 : 0 ≤ (u + f1 * a - f2 * b) * (s - f1) := by
    rcases eq_or_lt_of_le hf1 with h0 | h0
    · have hg := hg10 h0.symm
      have hds : 0 ≤ s - f1 := by rw [← h0]; linarith
      exact mul_nonneg hg hds
    · rcases eq_or_lt_of_le hf1b with h1 | h1
      · have hg := hg11 h1
        have hds : s - f1 ≤ 0 := by rw [h1]; linarith
        nlinarith [hg, hds]
      · rw [hg1i h0 h1]
        simp
  have hterm2 : 0 ≤ (f2 * c - f1 * b - v) * (t - f2) := by
    rcases eq_or_lt_of_le hf2 with h0 | h0
    · have hg := hg20 h0.symm
      have hdt : 0 ≤ t - f2 := by rw [← h0]; linarith
      exact mul_nonneg hg hdt
    · rcases eq_or_lt_of_le hf2b with h1 | h1
      · have hg := hg21 h1
        have hdt : t - f2 ≤ 0 := by rw [h1]; linarith
        nlinarith [hg, hdt]
      · rw [hg2i h0 h1]
        simp
  have hq : 0 ≤ a*(s-f1)^2 - 2*b*(s-f1)*(t-f2) + c*(t-f2)^2 := by
    rcases eq_or_lt_of_le ha with ha0 | hapos
    · have hb : b = 0 := by nlinarith [sq_nonneg b]
      rw [hb, ← ha0]
      have := mul_nonneg hc (sq_nonneg (t - f2))
      nlinarith
    · nlinarith [sq_nonneg (a*(s-f1) - b*(t-f2)), mul_nonneg hd (sq_nonneg (t-f2))]
  have key : (2*s*u - 2*t*v + s*s*a + t*t*c - 2*s*t*b) -
      (2*f1*u - 2*f2*v + f1*f1*a + f2*f2*c - 2*f1*f2*b) =
      2*((u + f1 * a - f2 * b) * (s - f1)) + 2*((f2 * c - f1 * b - v) * (t - f2)) +
      (a*(s-f1)^2 - 2*b*(s-f1)*(t-f2) + c*(t-f2)^2) := by
    ring
  linarith

/-- The hard step of the two-segment clamp analysis: when the second
fraction clamps to its lower end, the re-clamped first fraction still
satisfies the first-order condition of the second fraction
(`f1·b + v ≤ 0`). -/
theorem segKKT_B (a b c u v f1a : ℚ) (ha : 0 < a) (hc : 0 < c) (hd : 0 ≤ a * c - b * b)
    (hpar : a * c - b * b = 0 → b * v - u * c = 0)
    (hf1a : f1a = (if a * c - b * b = 0 then 0
      else clampQ ((b * v - u * c) / (a * c - b * b)) 0 1))
    (hnum : b * f1a + v < 0) :
    clampQ (-u / a) 0 1 * b + v ≤ 0 := by
  subst hf1a
  rcases eq_or_lt_of_le hd with hd0 | hdpos
  · -- parallel case: denominator zero
    rw [if_pos hd0.symm] at hnum
    have hv : v < 0 := by linarith
    have hbv : b * v = u * c := by
      have := hpar hd0.symm
      linarith
    rcases clampQ_cases (-u / a) with ⟨hf, hx⟩ | ⟨hf, hx⟩ | ⟨hf, hx0, hx1⟩
    · rw [hf]; linarith
    · rw [hf]
      have hu : a ≤ -u := by
        have := (le_div_iff ha).mp hx
        linarith
      rcases le_or_lt b 0 with hb | hb
      · linarith
      · nlinarith [mul_nonneg (by linarith : (0:ℚ) ≤ -u - a) (le_of_lt hc)]
    · rw [hf]
      have hkey : (a * v - u * b) * c = v * (a * c - b * b) := by
        linear_combination b * hbv
      have hz : a * v - u * b = 0 := by
        have h2 : (a * v - u * b) * c = 0 := by
          rw [hkey, ← hd0]
          ring
        rcases mul_eq_zero.mp h2 with h | h
        · exact h
        · exact absurd h (ne_of_gt hc)
      have heq : -u / a * b + v = (a * v - u * b) / a := by
        field_simp
        ring
      rw [heq, hz]
      simp
  · -- positive denominator
    rw [if_neg (ne_of_gt hdpos)] at hnum
    rcases clampQ_cases ((b * v - u * c) / (a * c - b * b)) with
      ⟨hfa, hxa⟩ | ⟨hfa, hxa⟩ | ⟨hfa, hxa0, hxa1⟩
    · -- s0 ≤ 0 : f1a = 0
      rw [hfa] at hnum
      have hv : v < 0 := by linarith
      have hbvuc : b * v - u * c ≤ 0 := by
        have := (div_le_iff hdpos).mp hxa
        linarith
      rcases clampQ_cases (-u / a) with ⟨hf, hx⟩ | ⟨hf, hx⟩ | ⟨hf, hx0, hx1⟩
      · rw [hf]; linarith
      · rw [hf]
        have hu : a ≤ -u := by
          have := (le_div_iff ha).mp hx
          linarith
        rcases le_or_lt b 0 with hb | hb
        · linarith
        · nlinarith [mul_nonneg (by linarith : (0:ℚ) ≤ -u - a) (le_of_lt hc)]
      · rw [hf]
        have hu0 : u ≤ 0 := by
          by_contra hcon
          push_neg at hcon
          have : -u / a < 0 := div_neg_of_neg_of_pos (by linarith) ha
          linarith
        have hgoal : a * v - u * b ≤ 0 := by
          rcases le_or_lt b 0 with hb | hb
          · nlinarith [mul_nonneg (neg_nonneg.mpr hu0) (neg_nonneg.mpr hb)]
          · nlinarith [mul_nonneg (le_of_lt hb) (by linarith : (0:ℚ) ≤ u * c - b * v),
              mul_pos hdpos (neg_pos.mpr hv)]
        have heq : -u / a * b + v = (a * v - u * b) / a := by
          field_simp
          ring
        rw [heq]
        exact div_nonpos_of_nonpos_of_nonneg hgoal (le_of_lt ha)
    · -- s0 ≥ 1 : f1a = 1
      rw [hfa] at hnum
      have hbv : b + v < 0 := by linarith
      have hs1 : a * c - b * b ≤ b * v - u * c := by
        have := (le_div_iff hdpos).mp hxa
        linarith
      rcases clampQ_cases (-u / a) with ⟨hf, hx⟩ | ⟨hf, hx⟩ | ⟨hf, hx0, hx1⟩
      · rw [hf]
        have hu : 0 ≤ u := by
          rcases div_nonpos_iff.mp hx with ⟨h1, h2⟩ | ⟨h1, h2⟩
          · linarith
          · linarith
        rcases le_or_lt 0 b with hb | hb
        · linarith
        · nlinarith [mul_nonneg hu (le_of_lt hc)]
      · rw [hf]; linarith
      · rw [hf]
        have hua : -a ≤ u := by
          have := (div_le_iff ha).mp hx1
          linarith
        have hgoal : a * v - u * b ≤ 0 := by
          rcases lt_trichotomy b 0 with hb | hb | hb
          · nlinarith [mul_nonneg (by linarith : (0:ℚ) ≤ u + a) hd,
              mul_nonneg (le_of_lt ha) (by linarith : (0:ℚ) ≤ (b * v - u * c) - (a * c - b * b))]
          · nlinarith
          · exfalso
            nlinarith [mul_nonneg (le_of_lt hc) (by linarith : (0:ℚ) ≤ u + a),
              mul_pos hb (by linarith : (0:ℚ) < -(b + v))]
        have heq : -u / a * b + v = (a * v - u * b) / a := by
          field_simp
          ring
        rw [heq]
        exact div_nonpos_of_nonpos_of_nonneg hgoal (le_of_lt ha)
    · -- 0 ≤ s0 ≤ 1 : f1a = s0 interior
      rw [hfa] at hnum
      have hs0l : 0 ≤ b * v - u * c := by
        by_contra hcon
        push_neg at hcon
        have : (b * v - u * c) / (a * c - b * b) < 0 := div_neg_of_neg_of_pos hcon hdpos
        linarith
      have hs0r : b * v - u * c ≤ a * c - b * b := by
        have := (div_le_one hdpos).mp hxa1
        linarith
      have hav : a * v - u * b < 0 := by
        have hrw : b * ((b * v - u * c) / (a * c - b * b)) + v =
            c * (a * v - u * b) / (a * c - b * b) := by
          field_simp
          ring
        rw [hrw] at hnum
        have hnum2 : c * (a * v - u * b) < 0 := by
          by_contra hcon
          push_neg at hcon
          have := div_nonneg hcon (le_of_lt hdpos)
          linarith
        nlinarith
      rcases clampQ_cases (-u / a) with ⟨hf, hx⟩ | ⟨hf, hx⟩ | ⟨hf, hx0, hx1⟩
      · rw [hf]
        have hu : 0 ≤ u := by
          rcases div_nonpos_iff.mp hx with ⟨h1, h2⟩ | ⟨h1, h2⟩
          · linarith
          · linarith
        rcases le_or_lt b 0 with hb | hb
        · nlinarith [mul_nonneg hu (neg_nonneg.mpr hb)]
        · nlinarith [mul_nonneg (le_of_lt hb) hs0l,
            mul_pos hc (by linarith : (0:ℚ) < u * b - a * v)]
      · rw [hf]
        have hu : a ≤ -u := by
          have := (le_div_iff ha).mp hx
          linarith
        rcases lt_trichotomy b 0 with hb | hb | hb
        · exfalso
          nlinarith [mul_nonneg (le_of_lt ha)
              (by linarith : (0:ℚ) ≤ (a * c - b * b) - (b * v - u * c)),
            mul_pos (neg_pos.mpr hb) (by linarith : (0:ℚ) < -(a * v - u * b)),
            mul_nonneg (by linarith : (0:ℚ) ≤ -u - a) (le_of_lt hdpos)]
        · nlinarith
        · nlinarith [mul_nonneg (by linarith : (0:ℚ) ≤ -u - a) (le_of_lt hb)]
      · rw [hf]
        have heq : -u / a * b + v = (a * v - u * b) / a := by
          field_simp
          ring
        rw [heq]
        exact le_of_lt (div_neg_of_neg_of_pos hav ha)

/-- The fractions computed by `segFractions` satisfy the box first-order
conditions of the two-segment squared-distance quadratic. -/
theorem segFractions_kkt (a b c u v : ℚ) (ha : 0 ≤ a) (hc : 0 ≤ c)
    (hd : 0 ≤ a * c - b * b)
    (hau : a = 0 → u = 0 ∧ b = 0) (hcv : c = 0 → v = 0 ∧ b = 0)
    (hpar : a * c - b * b = 0 → b * v - u * c = 0) :
    (0 ≤ (segFractions a b c u v).1 ∧ (segFractions a b c u v).1 ≤ 1) ∧
    (0 ≤ (segFractions a b c u v).2 ∧ (segFractions a b c u v).2 ≤ 1) ∧
    ((segFractions a b c u v).1 = 0 →
      0 ≤ u + (segFractions a b c u v).1 * a - (segFractions a b c u v).2 * b) ∧
    ((segFractions a b c u v).1 = 1 →
      u + (segFractions a b c u v).1 * a - (segFractions a b c u v).2 * b ≤ 0) ∧
    (0 < (segFractions a b c u v).1 → (segFractions a b c u v).1 < 1 →
      u + (segFractions a b c u v).1 * a - (segFractions a b c u v).2 * b = 0) ∧
    ((segFractions a b c u v).2 = 0 →
      0 ≤ (segFractions a b c u v).2 * c - (segFractions a b c u v).1 * b - v) ∧
    ((segFractions a b c u v).2 = 1 →
      (segFractions a b c u v).2 * c - (segFractions a b c u v).1 * b - v ≤ 0) ∧
    (0 < (segFractions a b c u v).2 → (segFractions a b c u v).2 < 1 →
      (segFractions a b c u v).2 * c - (segFractions a b c u v).1 * b - v = 0) := by
  by_cases hA : a = 0 ∧ c = 0
  · obtain ⟨ha0, hc0⟩ := hA
    obtain ⟨hu0, hb0⟩ := hau ha0
    obtain ⟨hv0, _hb0⟩ := hcv hc0
    have hfr : segFractions a b c u v = (0, 0) := by
      simp [segFractions, ha0, hc0]
    rw [hfr]
    dsimp only
    norm_num [hu0, hb0, hv0]
  · by_cases ha0 : a = 0
    · -- a = 0, c ≠ 0: point against segment
      have hc0 : c ≠ 0 := fun h => hA ⟨ha0, h⟩
      have hcpos : 0 < c := lt_of_le_of_ne hc (Ne.symm hc0)
      obtain ⟨hu0, hb0⟩ := hau ha0
      have hfr : segFractions a b c u v = (0, clampQ (v / c) 0 1) := by
        simp only [segFractions, if_neg hA, if_pos ha0]
      rw [hfr]
      dsimp only
      obtain ⟨hk0, hk1, hki⟩ := clamp1d_kkt c (-v) hcpos
      rw [neg_neg] at hk0 hk1 hki
      refine ⟨⟨le_refl 0, by norm_num⟩, clampQ_mem01 _, ?_, ?_, ?_, ?_, ?_, ?_⟩
      · intro _
        rw [hu0, hb0]
        norm_num
      · intro h
        exact absurd h (by norm_num)
      · intro h
        exact absurd h (by norm_num)
      · intro h2
        have := hk0 h2
        rw [hb0]
        linarith
      · intro h2
        have := hk1 h2
        rw [hb0]
        linarith
      · intro h0 h1
        have := hki h0 h1
        rw [hb0]
        linarith
    · by_cases hc0 : c = 0
      · -- c = 0, a ≠ 0: segment against point
        have hapos : 0 < a := lt_of_le_of_ne ha (Ne.symm ha0)
        obtain ⟨hv0, hb0⟩ := hcv hc0
        have hfr : segFractions a b c u v = (clampQ (-u / a) 0 1, 0) := by
          simp only [segFractions, if_neg hA, if_neg ha0, if_pos hc0]
        rw [hfr]
        dsimp only
        obtain ⟨hk0, hk1, hki⟩ := clamp1d_kkt a u hapos
        refine ⟨clampQ_mem01 _, ⟨le_refl 0, by norm_num⟩, ?_, ?_, ?_, ?_, ?_, ?_⟩
        · intro h2
          have := hk0 h2
          rw [hb0]
          linarith
        · intro h2
          have := hk1 h2
          rw [hb0]
          linarith
        · intro h0 h1
          have := hki h0 h1
          rw [hb0]
          linarith
        · intro _
          rw [hb0, hv0]
          norm_num
        · intro h
          exact absurd h (by norm_num)
        · intro h
          exact absurd h (by norm_num)
      · -- main case: a > 0, c > 0
        have hapos : 0 < a := lt_of_le_of_ne ha (Ne.symm ha0)
        have hcpos : 0 < c := lt_of_le_of_ne hc (Ne.symm hc0)
        by_cases hB : (b * (if a * c - b * b = 0 then 0
            else clampQ ((b * v - u * c) / (a * c - b * b)) 0 1) + v) / c < 0
        · -- second fraction clamps low
          have hfr : segFractions a b c u v = (clampQ (-u / a) 0 1, 0) := by
            simp only [segFractions, if_neg hA, if_neg ha0, if_neg hc0, if_pos hB]
          rw [hfr]
          dsimp only
          have hnum : b * (if a * c - b * b = 0 then 0
              else clampQ ((b * v - u * c) / (a * c - b * b)) 0 1) + v < 0 := by
            by_contra hcon
            push_neg at hcon
            have := div_nonneg hcon (le_of_lt hcpos)
            linarith
          have hseg := segKKT_B a b c u v _ hapos hcpos hd hpar rfl hnum
          obtain ⟨hk0, hk1, hki⟩ := clamp1d_kkt a u hapos
          refine ⟨clampQ_mem01 _, ⟨le_refl 0, by norm_num⟩, ?_, ?_, ?_, ?_, ?_, ?_⟩
          · intro h2
            have := hk0 h2
            linarith
          · intro h2
            have := hk1 h2
            linarith
          · intro h0 h1
            have := hki h0 h1
            linarith
          · intro _
            linarith
          · intro h
            exact absurd h (by norm_num)
          · intro h
            exact absurd h (by norm_num)
        · by_cases hC : 1 < (b * (if a * c - b * b = 0 then 0
              else clampQ ((b * v - u * c) / (a * c - b * b)) 0 1) + v) / c
          · -- second fraction clamps high
            have hfr : segFractions a b c u v = (clampQ ((b - u) / a) 0 1, 1) := by
              simp only [segFractions, if_neg hA, if_neg ha0, if_neg hc0, if_neg hB, if_pos hC]
            rw [hfr]
            dsimp only
            have e1 : a * c - -b * -b = a * c - b * b := by ring
            have e2 : -b * (c - v) - (u - b) * c = b * v - u * c := by ring
            have hX : c < b * (if a * c - b * b = 0 then 0
                else clampQ ((b * v - u * c) / (a * c - b * b)) 0 1) + v := by
              have := (lt_div_iff hcpos).mp hC
              linarith
            have hnum2 : -b * (if a * c - b * b = 0 then 0
                else clampQ ((b * v - u * c) / (a * c - b * b)) 0 1) + (c - v) < 0 := by
              linarith
            have hf1a2 : (if a * c - b * b = 0 then 0
                else clampQ ((b * v - u * c) / (a * c - b * b)) 0 1) =
                (if a * c - -b * -b = 0 then 0
                  else clampQ ((-b * (c - v) - (u - b) * c) / (a * c - -b * -b)) 0 1) := by
              rw [e1, e2]
            have hd2 : 0 ≤ a * c - -b * -b := by rw [e1]; exact hd
            have hpar2 : a * c - -b * -b = 0 → -b * (c - v) - (u - b) * c = 0 := by
              intro h
              rw [e2]
              exact hpar (by rw [← e1]; exact h)
            have hseg := segKKT_B a (-b) c (u - b) (c - v) _ hapos hcpos hd2 hpar2 hf1a2 hnum2
            have e3 : -(u - b) = b - u := by ring
            rw [e3] at hseg
            obtain ⟨hk0, hk1, hki⟩ := clamp1d_kkt a (u - b) hapos
            rw [e3] at hk0 hk1 hki
            refine ⟨clampQ_mem01 _, ⟨by norm_num, le_refl 1⟩, ?_, ?_, ?_, ?_, ?_, ?_⟩
            · intro h2
              have := hk0 h2
              linarith
            · intro h2
              have := hk1 h2
              linarith
            · intro h0 h1
              have := hki h0 h1
              linarith
            · intro h
              exact absurd h (by norm_num)
            · intro _
              linarith
            · intro _ h
              exact absurd h (by norm_num)
          · -- interior second fraction
            have hfr : segFractions a b c u v = ((if a * c - b * b = 0 then 0
                else clampQ ((b * v - u * c) / (a * c - b * b)) 0 1),
                (b * (if a * c - b * b = 0 then 0
                  else clampQ ((b * v - u * c) / (a * c - b * b)) 0 1) + v) / c) := by
              simp only [segFractions, if_neg hA, if_neg ha0, if_neg hc0, if_neg hB, if_neg hC]
            rw [hfr]
            dsimp only
            push_neg at hB hC
            have hg2 : (b * (if a * c - b * b = 0 then 0
                else clampQ ((b * v - u * c) / (a * c - b * b)) 0 1) + v) / c * c -
                (if a * c - b * b = 0 then 0
                  else clampQ ((b * v - u * c) / (a * c - b * b)) 0 1) * b - v = 0 := by
              rw [div_mul_cancel₀ _ (ne_of_gt hcpos)]
              ring
            by_cases hden : a * c - b * b = 0
            · have hbvuc := hpar hden
              simp only [if_pos hden] at hB hC hg2 ⊢
              have hg1z : u + 0 * a - (b * 0 + v) / c * b = 0 := by
                field_simp
                linear_combination -hbvuc
              refine ⟨⟨le_refl 0, by norm_num⟩, ⟨hB, hC⟩, ?_, ?_, ?_, ?_, ?_, ?_⟩
              · intro _
                linarith
              · intro h
                exact absurd h (by norm_num)
              · intro h
                exact absurd h (by norm_num)
              · intro _
                linarith
              · intro _
                linarith
              · intro _ _
                exact hg2
            · have hdenpos : 0 < a * c - b * b := lt_of_le_of_ne hd (Ne.symm hden)
              simp only [if_neg hden] at hB hC hg2 ⊢
              rcases clampQ_cases ((b * v - u * c) / (a * c - b * b)) with
                ⟨hf, hxa⟩ | ⟨hf, hxa⟩ | ⟨hf, hxa0, hxa1⟩
              · rw [hf] at hB hC hg2 ⊢
                have hbvuc : b * v - u * c ≤ 0 := by
                  have := (div_le_iff hdenpos).mp hxa
                  linarith
                have hg1eq : u + 0 * a - (b * 0 + v) / c * b = (u * c - b * v) / c := by
                  field_simp
                  ring
                refine ⟨⟨le_refl 0, by norm_num⟩, ⟨hB, hC⟩, ?_, ?_, ?_, ?_, ?_, ?_⟩
                · intro _
                  rw [hg1eq]
                  exact div_nonneg (by linarith) (le_of_lt hcpos)
                · intro h
                  exact absurd h (by norm_num)
                · intro h
                  exact absurd h (by norm_num)
                · intro _
                  linarith
                · intro _
                  linarith
                · intro _ _
                  exact hg2
              · rw [hf] at hB hC hg2 ⊢
                have hbvuc : a * c - b * b ≤ b * v - u * c := by
                  have := (le_div_iff hdenpos).mp hxa
                  linarith
                have hg1eq : u + 1 * a - (b * 1 + v) / c * b =
                    ((a * c - b * b) - (b * v - u * c)) / c := by
                  field_simp
                  ring
                refine ⟨⟨by norm_num, le_refl 1⟩, ⟨hB, hC⟩, ?_, ?_, ?_, ?_, ?_, ?_⟩
                · intro h
                  exact absurd h (by norm_num)
                · intro _
                  rw [hg1eq]
                  exact div_nonpos_of_nonpos_of_nonneg (by linarith) (le_of_lt hcpos)
                · intro _ h
                  exact absurd h (by norm_num)
                · intro _
                  linarith
                · intro _
                  linarith
                · intro _ _
                  exact hg2
              · rw [hf] at hB hC hg2 ⊢
                have hg1z : u + (b * v - u * c) / (a * c - b * b) * a -
                    (b * ((b * v - u * c) / (a * c - b * b)) + v) / c * b = 0 := by
                  field_simp
                  ring
                refine ⟨⟨hxa0, hxa1⟩, ⟨hB, hC⟩, ?_, ?_, ?_, ?_, ?_, ?_⟩
                · intro _
                  linarith
                · intro _
                  linarith
                · intro _ _
                  linarith
                · intro _
                  linarith
                · intro _
                  linarith
                · intro _ _
                  exact hg2

/-! ### From vectors to the scalar quadratic -/

theorem dotV_self_nonneg (w : b2Vec2) : 0 ≤ dotV w w := by
  simp only [dotV]
  nlinarith [sq_nonneg w.1, sq_nonneg w.2]

theorem dotV_self_zero (w : b2Vec2) (h : dotV w w = 0) : w.1 = 0 ∧ w.2 = 0 := by
  simp only [dotV] at h
  constructor <;> nlinarith [sq_nonneg w.1, sq_nonneg w.2]

/-- Lagrange identity in two dimensions. -/
theorem lagrangeV (x y : b2Vec2) :
    dotV x x * dotV y y - dotV x y * dotV x y = crossV x y * crossV x y := by
  simp only [dotV, crossV]
  ring

theorem distSq_param (p1 q1 p2 q2 : b2Vec2) (s t : ℚ) :
    distSqV (p1 + smulV s (q1 - p1)) (p2 + smulV t (q2 - p2)) =
      dotV (p1 - p2) (p1 - p2) +
      (2*s*(dotV (p1 - p2) (q1 - p1)) - 2*t*(dotV (p1 - p2) (q2 - p2)) +
        s*s*(dotV (q1 - p1) (q1 - p1)) + t*t*(dotV (q2 - p2) (q2 - p2)) -
        2*s*t*(dotV (q1 - p1) (q2 - p2))) := by
  simp only [distSqV, normSqV, dotV, smulV, Prod.fst_add, Prod.snd_add, Prod.fst_sub,
    Prod.snd_sub]
  ring

/-- C10: `b2SegmentDistance` returns fractions in [0,1], closest points on
the two segments at those fractions, their squared distance — and that
squared distance is the minimum over all point pairs of the two segments
(clamped at the end points). -/
theorem c10_segment_distance_correct (p1 q1 p2 q2 : b2Vec2) :
    (0 ≤ (b2SegmentDistance p1 q1 p2 q2).fraction1 ∧
      (b2SegmentDistance p1 q1 p2 q2).fraction1 ≤ 1) ∧
    (0 ≤ (b2SegmentDistance p1 q1 p2 q2).fraction2 ∧
      (b2SegmentDistance p1 q1 p2 q2).fraction2 ≤ 1) ∧
    (b2SegmentDistance p1 q1 p2 q2).closest1 =
      p1 + smulV (b2SegmentDistance p1 q1 p2 q2).fraction1 (q1 - p1) ∧
    (b2SegmentDistance p1 q1 p2 q2).closest2 =
      p2 + smulV (b2SegmentDistance p1 q1 p2 q2).fraction2 (q2 - p2) ∧
    (b2SegmentDistance p1 q1 p2 q2).distanceSquared =
      distSqV (b2SegmentDistance p1 q1 p2 q2).closest1
        (b2SegmentDistance p1 q1 p2 q2).closest2 ∧
    ∀ s t : ℚ, 0 ≤ s → s ≤ 1 → 0 ≤ t → t ≤ 1 →
      (b2SegmentDistance p1 q1 p2 q2).distanceSquared ≤
        distSqV (p1 + smulV s (q1 - p1)) (p2 + smulV t (q2 - p2)) := by
  have ha : 0 ≤ dotV (q1 - p1) (q1 - p1) := dotV_self_nonneg _
  have hc : 0 ≤ dotV (q2 - p2) (q2 - p2) := dotV_self_nonneg _
  have hd : 0 ≤ dotV (q1 - p1) (q1 - p1) * dotV (q2 - p2) (q2 - p2) -
      dotV (q1 - p1) (q2 - p2) * dotV (q1 - p1) (q2 - p2) := by
    rw [lagrangeV]
    exact mul_self_nonneg _
  have hau : dotV (q1 - p1) (q1 - p1) = 0 →
      dotV (p1 - p2) (q1 - p1) = 0 ∧ dotV (q1 - p1) (q2 - p2) = 0 := by
    intro h
    obtain ⟨h1, h2⟩ := dotV_self_zero _ h
    constructor <;> simp [dotV, h1, h2]
  have hcv : dotV (q2 - p2) (q2 - p2) = 0 →
      dotV (p1 - p2) (q2 - p2) = 0 ∧ dotV (q1 - p1) (q2 - p2) = 0 := by
    intro h
    obtain ⟨h1, h2⟩ := dotV_self_zero _ h
    constructor <;> simp [dotV, h1, h2]
  have hpar : dotV (q1 - p1) (q1 - p1) * dotV (q2 - p2) (q2 - p2) -
      dotV (q1 - p1) (q2 - p2) * dotV (q1 - p1) (q2 - p2) = 0 →
      dotV (q1 - p1) (q2 - p2) * dotV (p1 - p2) (q2 - p2) -
        dotV (p1 - p2) (q1 - p1) * dotV (q2 - p2) (q2 - p2) = 0 := by
    intro h
    have hcr : crossV (q1 - p1) (q2 - p2) = 0 := by
      have h2 : crossV (q1 - p1) (q2 - p2) * crossV (q1 - p1) (q2 - p2) = 0 := by
        rw [← lagrangeV]
        exact h
      exact mul_self_eq_zero.mp h2
    have hident : dotV (q1 - p1) (q2 - p2) * dotV (p1 - p2) (q2 - p2) -
        dotV (p1 - p2) (q1 - p1) * dotV (q2 - p2) (q2 - p2) =
        -(crossV (p1 - p2) (q2 - p2) * crossV (q1 - p1) (q2 - p2)) := by
      simp only [dotV, crossV]
      ring
    rw [hident, hcr]
    ring
  obtain ⟨hb1, hb2, hg10, hg11, hg1i, hg20, hg21, hg2i⟩ :=
    segFractions_kkt (dotV (q1 - p1) (q1 - p1)) (dotV (q1 - p1) (q2 - p2))
      (dotV (q2 - p2) (q2 - p2)) (dotV (p1 - p2) (q1 - p1)) (dotV (p1 - p2) (q2 - p2))
      ha hc hd hau hcv hpar
  refine ⟨hb1, hb2, rfl, rfl, rfl, ?_⟩
  intro s t hs hsb ht htb
  have hmin := kkt_min (dotV (q1 - p1) (q1 - p1)) (dotV (q1 - p1) (q2 - p2))
    (dotV (q2 - p2) (q2 - p2)) (dotV (p1 - p2) (q1 - p1)) (dotV (p1 - p2) (q2 - p2))
    _ _ s t ha hc hd hb1.1 hb1.2 hb2.1 hb2.2 hs hsb ht htb hg10 hg11 hg1i hg20 hg21 hg2i
  have hexp1 := distSq_param p1 q1 p2 q2 s t
  have hexp2 := distSq_param p1 q1 p2 q2
    (segFractions (dotV (q1 - p1) (q1 - p1)) (dotV (q1 - p1) (q2 - p2))
      (dotV (q2 - p2) (q2 - p2)) (dotV (p1 - p2) (q1 - p1)) (dotV (p1 - p2) (q2 - p2))).1
    (segFractions (dotV (q1 - p1) (q1 - p1)) (dotV (q1 - p1) (q2 - p2))
      (dotV (q2 - p2) (q2 - p2)) (dotV (p1 - p2) (q1 - p1)) (dotV (p1 - p2) (q2 - p2))).2
  show distSqV (p1 + smulV (segFractions (dotV (q1 - p1) (q1 - p1))
      (dotV (q1 - p1) (q2 - p2)) (dotV (q2 - p2) (q2 - p2)) (dotV (p1 - p2) (q1 - p1))
      (dotV (p1 - p2) (q2 - p2))).1 (q1 - p1))
    (p2 + smulV (segFractions (dotV (q1 - p1) (q1 - p1)) (dotV (q1 - p1) (q2 - p2))
      (dotV (q2 - p2) (q2 - p2)) (dotV (p1 - p2) (q1 - p1))
      (dotV (p1 - p2) (q2 - p2))).2 (q2 - p2)) ≤ _
  rw [hexp1, hexp2]
  linarith [hmin]

/-- Witness for C10: the unit horizontal segment at height 0 against the
unit horizontal segment at height 1, sampled at the midpoints. -/
theorem c10_segment_distance_correct_witness :
    (b2SegmentDistance (0, 0) (1, 0) (0, 1) (1, 1)).distanceSquared ≤
      distSqV ((0, 0) + smulV (1 / 2) ((1, 0) - (0, 0)))
        ((0, 1) + smulV (1 / 2) ((1, 1) - (0, 1))) :=
  (c10_segment_distance_correct (0, 0) (1, 0) (0, 1) (1, 1)).2.2.2.2.2 (1 / 2) (1 / 2)
    (by norm_num) (by norm_num) (by norm_num) (by norm_num)

/-! ## Dynamic AABB tree (tree group) -/

/-- An axis-aligned bounding box (`b2AABB`). -/
structure b2AABB where
  lowerBound : b2Vec2
  upperBound : b2Vec2
deriving DecidableEq, Repr

/-- Union of two AABBs (`b2AABB_Union`). -/
def b2AABB_Union (a b : b2AABB) : b2AABB :=
  ⟨(min a.lowerBound.1 b.lowerBound.1, min a.lowerBound.2 b.lowerBound.2),
    (max a.upperBound.1 b.upperBound.1, max a.upperBound.2 b.upperBound.2)⟩

/-- AABB containment (`b2AABB_Contains`): `a` contains `b`. -/
def b2AABB_Contains (a b : b2AABB) : Prop :=
  a.lowerBound.1 ≤ b.lowerBound.1 ∧ a.lowerBound.2 ≤ b.lowerBound.2 ∧
    b.upperBound.1 ≤ a.upperBound.1 ∧ b.upperBound.2 ≤ a.upperBound.2

instance instDecContains (a b : b2AABB) : Decidable (b2AABB_Contains a b) := by
  unfold b2AABB_Contains
  infer_instance

/-- `b2_aabbMargin` (0.1 m): the fattening margin of tree leaves. -/
def b2_aabbMargin : ℚ := 1 / 10

/-- A true AABB padded by the margin, so small movements need no tree
update. -/
def fattenAABB (a : b2AABB) : b2AABB :=
  ⟨(a.lowerBound.1 - b2_aabbMargin, a.lowerBound.2 - b2_aabbMargin),
    (a.upperBound.1 + b2_aabbMargin, a.upperBound.2 + b2_aabbMargin)⟩

/-- Area of an AABB, the insertion cost heuristic of the spec. -/
def aabbArea (a : b2AABB) : ℚ :=
  (a.upperBound.1 - a.lowerBound.1) * (a.upperBound.2 - a.lowerBound.2)

/-- Center abscissa, the median-split key of the rebuild. -/
def aabbCenterX (a : b2AABB) : ℚ := (a.lowerBound.1 + a.upperBound.1) / 2

/-- A tree node (`b2TreeNode`): a leaf owns a proxy id, category bits, a
user payload, a stored height (zero) and a fattened AABB; an internal node
stores its AABB, height, an enlarged (changed) flag and two children.  The
C index-addressed node pool is embedded as the tree the indices encode;
the enlarged flag is the changed-marker the partial rebuild consults (set
by enlargement operations, none of which is in the claim's operation set,
and propagated when internal nodes are rebuilt). -/
inductive b2TreeNode where
  | leaf (proxyId categoryBits userData height : ℕ) (fatAabb : b2AABB)
  | node (aabb : b2AABB) (height : ℕ) (enlarged : Bool) (child1 child2 : b2TreeNode)
deriving DecidableEq, Repr

/-- The AABB stored at a node. -/
def b2TreeNode.nodeAabb : b2TreeNode → b2AABB
  | .leaf _ _ _ _ fat => fat
  | .node a _ _ _ _ => a

/-- The height stored at a node. -/
def b2TreeNode.nodeHeight : b2TreeNode → ℕ
  | .leaf _ _ _ h _ => h
  | .node _ h _ _ _ => h

/-- The changed-marker of a node (a leaf is marked only by enlargement
operations, which the claim's operation set lacks). -/
def b2TreeNode.nodeEnlarged : b2TreeNode → Bool
  | .leaf _ _ _ _ _ => false
  | .node _ _ e _ _ => e

/-- Build an internal node: its AABB is the union of its children's, its
height one more than their maximum, and it inherits the children's
changed-markers. -/
def mkInternal (l r : b2TreeNode) : b2TreeNode :=
  .node (b2AABB_Union l.nodeAabb r.nodeAabb) (1 + max l.nodeHeight r.nodeHeight)
    (l.nodeEnlarged || r.nodeEnlarged) l r

/-- Modelled from the spec: the height-based local rebalancing rotation
applied to each ancestor after insertion and removal (spec 4.1: "rotate
ancestors for local rebalancing (height-based, similar to an AVL
rotation) after insertion and removal"; body not in src).  When one child
is taller by more than one, the taller child's taller grandchild is
promoted one level, recomputing union AABBs and heights. -/
def rotateNodes (A B : b2TreeNode) : b2TreeNode :=
  if A.nodeHeight + 1 < B.nodeHeight then
    match B with
    | .leaf p c u h fat => mkInternal A (.leaf p c u h fat)
    | .node _ _ _ B1 B2 =>
        if B2.nodeHeight ≤ B1.nodeHeight then mkInternal (mkInternal A B2) B1
        else mkInternal (mkInternal A B1) B2
  else if B.nodeHeight + 1 < A.nodeHeight then
    match A with
    | .leaf p c u h fat => mkInternal (.leaf p c u h fat) B
    | .node _ _ _ A1 A2 =>
        if A2.nodeHeight ≤ A1.nodeHeight then mkInternal A1 (mkInternal A2 B)
        else mkInternal A2 (mkInternal A1 B)
  else mkInternal A B

/-- Modelled from the spec: leaf insertion (`b2InsertLeaf`, body not in
src) — descend towards the child whose area enlargement is smaller and
pair up with the chosen leaf under a fresh internal node; each ancestor on
the way back up is rebuilt through the rebalancing rotation, recomputing
union AABBs and heights. -/
def insertLeafNode (lf : b2TreeNode) : b2TreeNode → b2TreeNode
  | .leaf p c u h fat => mkInternal (.leaf p c u h fat) lf
  | .node _ _ _ l r =>
      let costL := aabbArea (b2AABB_Union l.nodeAabb lf.nodeAabb) - aabbArea l.nodeAabb
      let costR := aabbArea (b2AABB_Union r.nodeAabb lf.nodeAabb) - aabbArea r.nodeAabb
      if costL ≤ costR then rotateNodes (insertLeafNode lf l) r
      else rotateNodes l (insertLeafNode lf r)

/-- Does the subtree own the proxy? -/
def hasProxy (pid : ℕ) : b2TreeNode → Bool
  | .leaf p _ _ _ _ => p == pid
  | .node _ _ _ l r => hasProxy pid l || hasProxy pid r

/-- Find a proxy's category bits, user data and fat AABB. -/
def findLeaf (pid : ℕ) : b2TreeNode → Option (ℕ × ℕ × b2AABB)
  | .leaf p c u _ fat => if p = pid then some (c, u, fat) else none
  | .node _ _ _ l r =>
      match findLeaf pid l with
      | some x => some x
      | none => findLeaf pid r

/-- Modelled from the spec: leaf removal (`b2RemoveLeaf`, body not in
src) — replace the removed leaf's parent by its sibling and rebuild every
ancestor on the way up through the rebalancing rotation, recomputing AABBs
and heights; `none` when the tree becomes empty. -/
def removeLeafNode (pid : ℕ) : b2TreeNode → Option b2TreeNode
  | .leaf p c u h fat => if p = pid then none else some (.leaf p c u h fat)
  | .node a h e l r =>
      if hasProxy pid l then
        match removeLeafNode pid l with
        | none => some r
        | some l2 => some (rotateNodes l2 r)
      else if hasProxy pid r then
        match removeLeafNode pid r with
        | none => some l
        | some r2 => some (rotateNodes l r2)
      else some (.node a h e l r)

/-- Modelled from the spec: the rebuild's unit collection.  A full
rebuild re-partitions all leaves; the partial mode descends only through
subtrees whose changed-marker is set, retaining every unchanged subtree
whole as a single rebuild unit. -/
def collectUnits (fullBuild : Bool) : b2TreeNode → List b2TreeNode
  | .leaf p c u h fat => [.leaf p c u h fat]
  | .node a h e l r =>
      if fullBuild = false ∧ e = false then [.node a h e l r]
      else collectUnits fullBuild l ++ collectUnits fullBuild r

/-- Rebuild sort key: center abscissa of the leaf boxes. -/
def leafCenterLe (x y : b2TreeNode) : Bool :=
  decide (aabbCenterX x.nodeAabb ≤ aabbCenterX y.nodeAabb)

/-- Modelled from the spec: the median-split rebuild (`b2DynamicTree_Rebuild`
body not in src) — split the (sorted) leaf sequence at its median and
recurse, pairing the halves under fresh internal nodes. -/
def buildFromLeaves : List b2TreeNode → Option b2TreeNode
  | [] => none
  | [l] => some l
  | a :: b :: rest =>
      let s := a :: b :: rest
      let k := s.length / 2
      match buildFromLeaves (s.take k), buildFromLeaves (s.drop k) with
      | some l, some r => some (mkInternal l r)
      | some l, none => some l
      | none, some r => some r
      | none, none => none
termination_by l => l.length
decreasing_by
  all_goals simp only [List.length_take, List.length_drop, List.length_cons]
  all_goals omega

/-- The dynamic tree (`b2DynamicTree`): the root (if any), the next fresh
proxy id (the C node pool's id allocation is embedded as a counter), and
the map from live proxy ids to the true AABB last declared for them (the
caller-supplied box of the create or move that produced the leaf). -/
structure b2DynamicTree where
  root : Option b2TreeNode
  nextProxyId : ℕ
  declared : List (ℕ × b2AABB)
deriving DecidableEq, Repr

/-- `b2DynamicTree_Create`: the empty tree. -/
def b2DynamicTree_Create : b2DynamicTree := ⟨none, 0, []⟩

/-- Override a proxy's declared true AABB. -/
def setDecl (l : List (ℕ × b2AABB)) (pid : ℕ) (a : b2AABB) : List (ℕ × b2AABB) :=
  (pid, a) :: l.filter fun e => e.1 != pid

/-- Look up a proxy's declared true AABB. -/
def lookupDecl (l : List (ℕ × b2AABB)) (pid : ℕ) : Option b2AABB :=
  (l.find? fun e => e.1 == pid).map fun e => e.2

/-- Modelled from the spec: `b2DynamicTree_CreateProxy` (body not in
src) — insert a new leaf with a fattened AABB and a fresh stable id. -/
def b2DynamicTree_CreateProxy (t : b2DynamicTree) (aabb : b2AABB)
    (categoryBits userData : ℕ) : b2DynamicTree × ℕ :=
  let lf : b2TreeNode := .leaf t.nextProxyId categoryBits userData 0 (fattenAABB aabb)
  ({ root := some (match t.root with
      | none => lf
      | some r => insertLeafNode lf r)
     nextProxyId := t.nextProxyId + 1
     declared := setDecl t.declared t.nextProxyId aabb }, t.nextProxyId)

/-- Modelled from the spec: `b2DynamicTree_DestroyProxy` (body not in
src) — remove the proxy's leaf and recycle it. -/
def b2DynamicTree_DestroyProxy (t : b2DynamicTree) (pid : ℕ) : b2DynamicTree :=
  match t.root with
  | none => t
  | some r => { t with root := removeLeafNode pid r }

/-- Modelled from the spec: `b2DynamicTree_MoveProxy` (body not in src) —
when the new AABB stays inside the current fat AABB only the declared box
changes (the O(1) fast path); otherwise the leaf is removed and reinserted
with a freshly fattened AABB. -/
def b2DynamicTree_MoveProxy (t : b2DynamicTree) (pid : ℕ) (aabb : b2AABB) :
    b2DynamicTree :=
  match t.root with
  | none => t
  | some r =>
      match findLeaf pid r with
      | none => t
      | some (cat, ud, fat) =>
          if b2AABB_Contains fat aabb then
            { t with declared := setDecl t.declared pid aabb }
          else
            let lf : b2TreeNode := .leaf pid cat ud 0 (fattenAABB aabb)
            { t with
              root := some (match removeLeafNode pid r with
                | none => lf
                | some r2 => insertLeafNode lf r2)
              declared := setDecl t.declared pid aabb }

/-- Modelled from the spec: `b2DynamicTree_Rebuild` (body not in src) —
re-partition the rebuild units by a median split on sorted box centers.
A full rebuild (`fullBuild = true`) re-partitions all leaves; the partial
mode re-partitions only changed subtrees, retaining each unchanged
subtree whole. -/
def b2DynamicTree_Rebuild (t : b2DynamicTree) (fullBuild : Bool) : b2DynamicTree :=
  match t.root with
  | none => t
  | some r =>
      { t with
        root := buildFromLeaves (sortByB leafCenterLe (collectUnits fullBuild r)) }

/-- The tree operations quantified over by the invariant claim. -/
inductive b2TreeOp where
  | createProxy (aabb : b2AABB) (categoryBits userData : ℕ)
  | moveProxy (proxyId : ℕ) (aabb : b2AABB)
  | destroyProxy (proxyId : ℕ)
  | rebuild (fullBuild : Bool)
deriving DecidableEq, Repr

/-- Apply one operation. -/
def applyTreeOp (t : b2DynamicTree) : b2TreeOp → b2DynamicTree
  | .createProxy a c u => (b2DynamicTree_CreateProxy t a c u).1
  | .moveProxy p a => b2DynamicTree_MoveProxy t p a
  | .destroyProxy p => b2DynamicTree_DestroyProxy t p
  | .rebuild f => b2DynamicTree_Rebuild t f

/-- Apply a sequence of operations to a fresh tree. -/
def applyTreeOps (ops : List b2TreeOp) : b2DynamicTree :=
  ops.foldl applyTreeOp b2DynamicTree_Create

/-- The proxy ids of a subtree's leaves. -/
def pidsOf : b2TreeNode → List ℕ
  | .leaf p _ _ _ _ => [p]
  | .node _ _ _ l r => pidsOf l ++ pidsOf r

/-- Structural soundness of a subtree against the declared-box map: every
leaf stores height 0 and a fat AABB containing its declared true AABB, and
every internal node stores exactly the union AABB and `1 + max` height of
its children. -/
def treeOk (decl : List (ℕ × b2AABB)) : b2TreeNode → Prop
  | .leaf p _ _ h fat =>
      h = 0 ∧ ∃ tru, lookupDecl decl p = some tru ∧ b2AABB_Contains fat tru
  | .node a h _ l r =>
      a = b2AABB_Union l.nodeAabb r.nodeAabb ∧
      h = 1 + max l.nodeHeight r.nodeHeight ∧ treeOk decl l ∧ treeOk decl r

/-- Full state invariant: the tree is sound, its leaf ids are distinct,
and all are below the fresh-id counter. -/
def treeStateOk (t : b2DynamicTree) : Prop :=
  match t.root with
  | none => True
  | some r =>
      treeOk t.declared r ∧ (pidsOf r).Nodup ∧ ∀ p ∈ pidsOf r, p < t.nextProxyId

/-- Claim bullet 1: every leaf's fat AABB contains its declared true
AABB. -/
def leafFatOk (decl : List (ℕ × b2AABB)) : b2TreeNode → Prop
  | .leaf p _ _ _ fat =>
      ∃ tru, lookupDecl decl p = some tru ∧ b2AABB_Contains fat tru
  | .node _ _ _ l r => leafFatOk decl l ∧ leafFatOk decl r

/-- Claim bullet 2: every internal node's AABB equals the union of its
children's AABBs. -/
def internalUnionOk : b2TreeNode → Prop
  | .leaf _ _ _ _ _ => True
  | .node a _ _ l r =>
      a = b2AABB_Union l.nodeAabb r.nodeAabb ∧ internalUnionOk l ∧ internalUnionOk r

/-- Claim bullet 3: the height stored at every leaf is 0. -/
def leafHeightZero : b2TreeNode → Prop
  | .leaf _ _ _ h _ => h = 0
  | .node _ _ _ l r => leafHeightZero l ∧ leafHeightZero r

/-- Claim bullet 4: heights increase strictly from every child toward the
root. -/
def heightsIncrease : b2TreeNode → Prop
  | .leaf _ _ _ _ _ => True
  | .node _ h _ l r =>
      l.nodeHeight < h ∧ r.nodeHeight < h ∧ heightsIncrease l ∧ heightsIncrease r

/-- Fattening only grows a box. -/
theorem contains_fattenAABB (a : b2AABB) : b2AABB_Contains (fattenAABB a) a := by
  refine ⟨?_, ?_, ?_, ?_⟩ <;> simp only [fattenAABB, b2_aabbMargin] <;> linarith

/-- Looking up the proxy just set yields the new box. -/
theorem lookupDecl_setDecl_self (l : List (ℕ × b2AABB)) (pid : ℕ) (a : b2AABB) :
    lookupDecl (setDecl l pid a) pid = some a := by
  simp [lookupDecl, setDecl, List.find?_cons]

/-- `find?` by key ignores a filter dropping a different key. -/
theorem find_filter_ne (pid q : ℕ) (hq : q ≠ pid) :
    ∀ l : List (ℕ × b2AABB),
      ((l.filter fun e => e.1 != pid).find? fun e => e.1 == q) =
        l.find? fun e => e.1 == q
  | [] => rfl
  | e :: l => by
      by_cases h : e.1 = pid
      · rw [List.filter_cons_of_neg (by simp [h]),
          List.find?_cons_of_neg _ (by simp [h]; omega)]
        exact find_filter_ne pid q hq l
      · rw [List.filter_cons_of_pos (by simp [h])]
        by_cases h3 : (e.1 == q) = true
        · simp only [List.find?_cons, h3]
        · rw [Bool.not_eq_true] at h3
          simp only [List.find?_cons, h3]
          exact find_filter_ne pid q hq l

/-- Looking up another proxy is unaffected by a set. -/
theorem lookupDecl_setDecl_other (l : List (ℕ × b2AABB)) (pid q : ℕ) (a : b2AABB)
    (hq : q ≠ pid) : lookupDecl (setDecl l pid a) q = lookupDecl l q := by
  have hfq : (pid == q) = false := by simp; omega
  simp only [lookupDecl, setDecl, List.find?_cons, hfq, cond_false]
  rw [find_filter_ne pid q hq l]

/-- A subtree not owning `pid` stays sound when `pid`'s declared box
changes. -/
theorem treeOk_setDecl_notmem {d : List (ℕ × b2AABB)} (pid : ℕ) (a : b2AABB) :
    ∀ t : b2TreeNode, pid ∉ pidsOf t → treeOk d t → treeOk (setDecl d pid a) t := by
  intro t
  induction t with
  | leaf p c u h fat =>
      intro hmem hok
      simp only [pidsOf, List.mem_singleton] at hmem
      simp only [treeOk] at hok ⊢
      obtain ⟨h0, tru, hl, hc⟩ := hok
      refine ⟨h0, tru, ?_, hc⟩
      rw [lookupDecl_setDecl_other d pid p a fun he => hmem he.symm]
      exact hl
  | node nb nh ne l r ihl ihr =>
      intro hmem hok
      simp only [pidsOf, List.mem_append, not_or] at hmem
      simp only [treeOk] at hok ⊢
      exact ⟨hok.1, hok.2.1, ihl hmem.1 hok.2.2.1, ihr hmem.2 hok.2.2.2⟩

/-- `hasProxy` decides membership of the leaf-id list. -/
theorem hasProxy_iff (pid : ℕ) :
    ∀ t : b2TreeNode, hasProxy pid t = true ↔ pid ∈ pidsOf t := by
  intro t
  induction t with
  | leaf p c u h fat =>
      simp only [hasProxy, pidsOf, List.mem_singleton, beq_iff_eq]
      exact eq_comm
  | node nb nh ne l r ihl ihr =>
      simp only [hasProxy, pidsOf, Bool.or_eq_true, ihl, ihr, List.mem_append]

/-- A found proxy is among the leaf ids. -/
theorem findLeaf_mem (pid : ℕ) :
    ∀ t : b2TreeNode, ∀ x, findLeaf pid t = some x → pid ∈ pidsOf t := by
  intro t
  induction t with
  | leaf p c u h fat =>
      intro x hf
      simp only [findLeaf] at hf
      split at hf
      · simp only [pidsOf, List.mem_singleton]
        omega
      · exact absurd hf (by simp)
  | node nb nh ne l r ihl ihr =>
      intro x hf
      simp only [findLeaf] at hf
      simp only [pidsOf, List.mem_append]
      cases hfl : findLeaf pid l with
      | some y => exact Or.inl (ihl y hfl)
      | none => rw [hfl] at hf; exact Or.inr (ihr x hf)

/-- A proxy that is not found is not among the leaf ids. -/
theorem findLeaf_none (pid : ℕ) :
    ∀ t : b2TreeNode, findLeaf pid t = none → pid ∉ pidsOf t := by
  intro t
  induction t with
  | leaf p c u h fat =>
      intro hf
      simp only [findLeaf] at hf
      split at hf
      · exact absurd hf (by simp)
      · simp only [pidsOf, List.mem_singleton]
        omega
  | node nb nh ne l r ihl ihr =>
      intro hf
      simp only [findLeaf] at hf
      simp only [pidsOf, List.mem_append, not_or]
      cases hfl : findLeaf pid l with
      | some y => rw [hfl] at hf; exact absurd hf (by simp)
      | none => rw [hfl] at hf; exact ⟨ihl hfl, ihr hf⟩

/-- A `mkInternal` node over sound children is sound. -/
theorem treeOk_mkInternal {d : List (ℕ × b2AABB)} {l r : b2TreeNode}
    (hl : treeOk d l) (hr : treeOk d r) : treeOk d (mkInternal l r) :=
  ⟨rfl, rfl, hl, hr⟩

/-- A rebalancing rotation over sound subtrees is sound: every rotated
shape is rebuilt from sound pieces with exact unions and recomputed
heights. -/
theorem treeOk_rotateNodes {d : List (ℕ × b2AABB)} {A B : b2TreeNode}
    (hA : treeOk d A) (hB : treeOk d B) : treeOk d (rotateNodes A B) := by
  unfold rotateNodes
  split
  · cases B with
    | leaf p c u h fat => exact treeOk_mkInternal hA hB
    | node nb nh ne B1 B2 =>
        obtain ⟨-, -, h1, h2⟩ : _ ∧ _ ∧ _ ∧ _ := hB
        dsimp only
        split
        · exact treeOk_mkInternal (treeOk_mkInternal hA h2) h1
        · exact treeOk_mkInternal (treeOk_mkInternal hA h1) h2
  · split
    · cases A with
      | leaf p c u h fat => exact treeOk_mkInternal hA hB
      | node nb nh ne A1 A2 =>
          obtain ⟨-, -, h1, h2⟩ : _ ∧ _ ∧ _ ∧ _ := hA
          dsimp only
          split
          · exact treeOk_mkInternal h1 (treeOk_mkInternal h2 hB)
          · exact treeOk_mkInternal h2 (treeOk_mkInternal h1 hB)
    · exact treeOk_mkInternal hA hB

/-- A rebalancing rotation permutes exactly the two subtrees' leaf ids. -/
theorem pids_rotateNodes (A B : b2TreeNode) :
    List.Perm (pidsOf (rotateNodes A B)) (pidsOf A ++ pidsOf B) := by
  unfold rotateNodes
  split
  · cases B with
    | leaf p c u h fat => exact List.Perm.refl _
    | node nb nh ne B1 B2 =>
        dsimp only
        split
        · show List.Perm ((pidsOf A ++ pidsOf B2) ++ pidsOf B1)
            (pidsOf A ++ (pidsOf B1 ++ pidsOf B2))
          rw [List.append_assoc]
          exact List.perm_append_comm.append_left _
        · show List.Perm ((pidsOf A ++ pidsOf B1) ++ pidsOf B2)
            (pidsOf A ++ (pidsOf B1 ++ pidsOf B2))
          rw [List.append_assoc]
  · split
    · cases A with
      | leaf p c u h fat => exact List.Perm.refl _
      | node nb nh ne A1 A2 =>
          dsimp only
          split
          · show List.Perm (pidsOf A1 ++ (pidsOf A2 ++ pidsOf B))
              ((pidsOf A1 ++ pidsOf A2) ++ pidsOf B)
            rw [List.append_assoc]
          · show List.Perm (pidsOf A2 ++ (pidsOf A1 ++ pidsOf B))
              ((pidsOf A1 ++ pidsOf A2) ++ pidsOf B)
            rw [← List.append_assoc]
            exact List.perm_append_comm.append_right _
    · exact List.Perm.refl _

/-- Insertion adds exactly the new leaf's ids (as a permutation). -/
theorem pids_insertLeafNode (lf : b2TreeNode) :
    ∀ t : b2TreeNode,
      List.Perm (pidsOf (insertLeafNode lf t)) (pidsOf lf ++ pidsOf t) := by
  intro t
  induction t with
  | leaf p c u h fat =>
      simp only [insertLeafNode, mkInternal, pidsOf]
      exact List.perm_append_comm
  | node nb nh ne l r ihl ihr =>
      simp only [insertLeafNode]
      split
      · refine ((pids_rotateNodes _ _).trans (ihl.append_right _)).trans ?_
        show List.Perm ((pidsOf lf ++ pidsOf l) ++ pidsOf r)
          (pidsOf lf ++ (pidsOf l ++ pidsOf r))
        rw [List.append_assoc]
      · refine ((pids_rotateNodes _ _).trans (ihr.append_left _)).trans ?_
        show List.Perm (pidsOf l ++ (pidsOf lf ++ pidsOf r))
          (pidsOf lf ++ (pidsOf l ++ pidsOf r))
        rw [← List.append_assoc, ← List.append_assoc]
        exact List.perm_append_comm.append_right _

/-- Insertion of a sound leaf preserves soundness. -/
theorem treeOk_insertLeafNode {d : List (ℕ × b2AABB)} (lf : b2TreeNode)
    (hlf : treeOk d lf) :
    ∀ t : b2TreeNode, treeOk d t → treeOk d (insertLeafNode lf t) := by
  intro t
  induction t with
  | leaf p c u h fat =>
      intro hok
      exact treeOk_mkInternal hok hlf
  | node nb nh ne l r ihl ihr =>
      intro hok
      obtain ⟨-, -, hl, hr⟩ : _ ∧ _ ∧ _ ∧ _ := hok
      simp only [insertLeafNode]
      split
      · exact treeOk_rotateNodes (ihl hl) hr
      · exact treeOk_rotateNodes hl (ihr hr)

/-- Removal preserves soundness of the remaining tree. -/
theorem treeOk_removeLeaf {d : List (ℕ × b2AABB)} (pid : ℕ) :
    ∀ t t2 : b2TreeNode, removeLeafNode pid t = some t2 → treeOk d t → treeOk d t2 := by
  intro t
  induction t with
  | leaf p c u h fat =>
      intro t2 hrm hok
      simp only [removeLeafNode] at hrm
      split at hrm
      · exact absurd hrm (by simp)
      · cases hrm
        exact hok
  | node nb nh ne l r ihl ihr =>
      intro t2 hrm hok
      obtain ⟨ha, hh, hl, hr⟩ : _ ∧ _ ∧ _ ∧ _ := hok
      simp only [removeLeafNode] at hrm
      split at hrm
      · cases hrl : removeLeafNode pid l with
        | none => rw [hrl] at hrm; cases hrm; exact hr
        | some l2 =>
            rw [hrl] at hrm
            cases hrm
            exact treeOk_rotateNodes (ihl l2 hrl hl) hr
      · split at hrm
        · cases hrr : removeLeafNode pid r with
          | none => rw [hrr] at hrm; cases hrm; exact hl
          | some r2 =>
              rw [hrr] at hrm
              cases hrm
              exact treeOk_rotateNodes hl (ihr r2 hrr hr)
        · cases hrm
          exact ⟨ha, hh, hl, hr⟩

/-- Removal only keeps existing leaf ids. -/
theorem pids_removeLeaf_subset (pid : ℕ) :
    ∀ t t2 : b2TreeNode, removeLeafNode pid t = some t2 →
      pidsOf t2 ⊆ pidsOf t := by
  intro t
  induction t with
  | leaf p c u h fat =>
      intro t2 hrm
      simp only [removeLeafNode] at hrm
      split at hrm
      · exact absurd hrm (by simp)
      · cases hrm
        exact fun x hx => hx
  | node nb nh ne l r ihl ihr =>
      intro t2 hrm
      simp only [removeLeafNode] at hrm
      split at hrm
      · cases hrl : removeLeafNode pid l with
        | none =>
            rw [hrl] at hrm; cases hrm
            intro x hx
            exact List.mem_append_right _ hx
        | some l2 =>
            rw [hrl] at hrm; cases hrm
            intro x hx
            rcases List.mem_append.mp ((pids_rotateNodes l2 r).subset hx) with h | h
            · exact List.mem_append_left _ (ihl l2 hrl h)
            · exact List.mem_append_right _ h
      · split at hrm
        · cases hrr : removeLeafNode pid r with
          | none =>
              rw [hrr] at hrm; cases hrm
              intro x hx
              exact List.mem_append_left _ hx
          | some r2 =>
              rw [hrr] at hrm; cases hrm
              intro x hx
              rcases List.mem_append.mp ((pids_rotateNodes l r2).subset hx) with h | h
              · exact List.mem_append_left _ h
              · exact List.mem_append_right _ (ihr r2 hrr h)
        · cases hrm
          exact fun x hx => hx

/-- Removal preserves distinctness of leaf ids. -/
theorem pids_removeLeaf_nodup (pid : ℕ) :
    ∀ t t2 : b2TreeNode, removeLeafNode pid t = some t2 → (pidsOf t).Nodup →
      (pidsOf t2).Nodup := by
  intro t
  induction t with
  | leaf p c u h fat =>
      intro t2 hrm hnd
      simp only [removeLeafNode] at hrm
      split at hrm
      · exact absurd hrm (by simp)
      · cases hrm
        exact hnd
  | node nb nh ne l r ihl ihr =>
      intro t2 hrm hnd
      simp only [pidsOf] at hnd
      rw [List.nodup_append] at hnd
      obtain ⟨ndl, ndr, hdisj⟩ := hnd
      simp only [removeLeafNode] at hrm
      split at hrm
      · cases hrl : removeLeafNode pid l with
        | none => rw [hrl] at hrm; cases hrm; exact ndr
        | some l2 =>
            rw [hrl] at hrm; cases hrm
            rw [(pids_rotateNodes l2 r).nodup_iff, List.nodup_append]
            exact ⟨ihl l2 hrl ndl, ndr,
              fun a hal har => hdisj (pids_removeLeaf_subset pid l l2 hrl hal) har⟩
      · split at hrm
        · cases hrr : removeLeafNode pid r with
          | none => rw [hrr] at hrm; cases hrm; exact ndl
          | some r2 =>
              rw [hrr] at hrm; cases hrm
              rw [(pids_rotateNodes l r2).nodup_iff, List.nodup_append]
              exact ⟨ndl, ihr r2 hrr ndr,
                fun a hal har => hdisj hal (pids_removeLeaf_subset pid r r2 hrr har)⟩
        · cases hrm
          exact List.nodup_append.mpr ⟨ndl, ndr, hdisj⟩

/-- After removing `pid` from a duplicate-free tree, `pid` is gone. -/
theorem pid_notin_removeLeaf (pid : ℕ) :
    ∀ t t2 : b2TreeNode, (pidsOf t).Nodup → removeLeafNode pid t = some t2 →
      pid ∉ pidsOf t2 := by
  intro t
  induction t with
  | leaf p c u h fat =>
      intro t2 hnd hrm
      simp only [removeLeafNode] at hrm
      split at hrm
      · exact absurd hrm (by simp)
      · cases hrm
        simp only [pidsOf, List.mem_singleton]
        omega
  | node nb nh ne l r ihl ihr =>
      intro t2 hnd hrm
      simp only [pidsOf] at hnd
      rw [List.nodup_append] at hnd
      obtain ⟨ndl, ndr, hdisj⟩ := hnd
      simp only [removeLeafNode] at hrm
      split at hrm
      · rename_i hhl
        have hmeml : pid ∈ pidsOf l := (hasProxy_iff pid l).mp hhl
        cases hrl : removeLeafNode pid l with
        | none =>
            rw [hrl] at hrm; cases hrm
            exact fun hmr => hdisj hmeml hmr
        | some l2 =>
            rw [hrl] at hrm; cases hrm
            intro hm
            rcases List.mem_append.mp ((pids_rotateNodes l2 r).subset hm) with h | h
            · exact ihl l2 ndl hrl h
            · exact hdisj hmeml h
      · rename_i hhl
        have hnmeml : pid ∉ pidsOf l := fun hm =>
          hhl ((hasProxy_iff pid l).mpr hm)
        split at hrm
        · cases hrr : removeLeafNode pid r with
          | none =>
              rw [hrr] at hrm; cases hrm
              exact hnmeml
          | some r2 =>
              rw [hrr] at hrm; cases hrm
              intro hm
              rcases List.mem_append.mp ((pids_rotateNodes l r2).subset hm) with h | h
              · exact hnmeml h
              · exact ihr r2 ndr hrr h
        · rename_i hhr
          cases hrm
          simp only [pidsOf, List.mem_append, not_or]
          exact ⟨hnmeml, fun hm => hhr ((hasProxy_iff pid r).mpr hm)⟩

/-- `buildFromLeaves` succeeds on any non-empty leaf list. -/
theorem buildFromLeaves_some :
    ∀ (n : ℕ) (ls : List b2TreeNode), ls.length ≤ n → ls ≠ [] →
      ∃ t, buildFromLeaves ls = some t := by
  intro n
  induction n with
  | zero =>
      intro ls hlen hne
      cases ls with
      | nil => exact absurd rfl hne
      | cons a l => simp at hlen
  | succ n ih =>
      intro ls hlen hne
      cases ls with
      | nil => exact absurd rfl hne
      | cons a l =>
          cases l with
          | nil => exact ⟨a, by simp only [buildFromLeaves]⟩
          | cons b rest =>
              simp only [List.length_cons] at hlen
              simp only [buildFromLeaves]
              obtain ⟨tl, htl⟩ :=
                ih ((a :: b :: rest).take ((a :: b :: rest).length / 2))
                  (by simp only [List.length_take, List.length_cons]; omega)
                  (List.ne_nil_of_length_pos
                    (by simp only [List.length_take, List.length_cons]; omega))
              obtain ⟨tr, htr⟩ :=
                ih ((a :: b :: rest).drop ((a :: b :: rest).length / 2))
                  (by simp only [List.length_drop, List.length_cons]; omega)
                  (List.ne_nil_of_length_pos
                    (by simp only [List.length_drop, List.length_cons]; omega))
              rw [htl, htr]
              exact ⟨_, rfl⟩

/-- A rebuilt tree over sound leaves is sound. -/
theorem buildFromLeaves_ok (d : List (ℕ × b2AABB)) :
    ∀ (n : ℕ) (ls : List b2TreeNode), ls.length ≤ n →
      (∀ lf ∈ ls, treeOk d lf) → ∀ t, buildFromLeaves ls = some t → treeOk d t := by
  intro n
  induction n with
  | zero =>
      intro ls hlen hall t ht
      cases ls with
      | nil => exact absurd ht (by simp [buildFromLeaves])
      | cons a l => simp at hlen
  | succ n ih =>
      intro ls hlen hall t ht
      cases ls with
      | nil => exact absurd ht (by simp [buildFromLeaves])
      | cons a l =>
          cases l with
          | nil =>
              simp only [buildFromLeaves] at ht
              cases ht
              exact hall _ (by simp)
          | cons b rest =>
              simp only [List.length_cons] at hlen
              simp only [buildFromLeaves] at ht
              obtain ⟨tl, htl⟩ :=
                buildFromLeaves_some n
                  ((a :: b :: rest).take ((a :: b :: rest).length / 2))
                  (by simp only [List.length_take, List.length_cons]; omega)
                  (List.ne_nil_of_length_pos
                    (by simp only [List.length_take, List.length_cons]; omega))
              obtain ⟨tr, htr⟩ :=
                buildFromLeaves_some n
                  ((a :: b :: rest).drop ((a :: b :: rest).length / 2))
                  (by simp only [List.length_drop, List.length_cons]; omega)
                  (List.ne_nil_of_length_pos
                    (by simp only [List.length_drop, List.length_cons]; omega))
              rw [htl, htr] at ht
              cases ht
              refine treeOk_mkInternal
                (ih _ (by simp only [List.length_take, List.length_cons]; omega)
                  (fun lf hm => hall lf (List.mem_of_mem_take hm)) tl htl)
                (ih _ (by simp only [List.length_drop, List.length_cons]; omega)
                  (fun lf hm => hall lf (List.mem_of_mem_drop hm)) tr htr)

/-- A rebuilt tree has exactly the ids of its leaf list. -/
theorem buildFromLeaves_pids :
    ∀ (n : ℕ) (ls : List b2TreeNode), ls.length ≤ n →
      ∀ t, buildFromLeaves ls = some t → pidsOf t = ls.flatMap pidsOf := by
  intro n
  induction n with
  | zero =>
      intro ls hlen t ht
      cases ls with
      | nil => exact absurd ht (by simp [buildFromLeaves])
      | cons a l => simp at hlen
  | succ n ih =>
      intro ls hlen t ht
      cases ls with
      | nil => exact absurd ht (by simp [buildFromLeaves])
      | cons a l =>
          cases l with
          | nil =>
              simp only [buildFromLeaves] at ht
              cases ht
              simp
          | cons b rest =>
              simp only [List.length_cons] at hlen
              simp only [buildFromLeaves] at ht
              obtain ⟨tl, htl⟩ :=
                buildFromLeaves_some n
                  ((a :: b :: rest).take ((a :: b :: rest).length / 2))
                  (by simp only [List.length_take, List.length_cons]; omega)
                  (List.ne_nil_of_length_pos
                    (by simp only [List.length_take, List.length_cons]; omega))
              obtain ⟨tr, htr⟩ :=
                buildFromLeaves_some n
                  ((a :: b :: rest).drop ((a :: b :: rest).length / 2))
                  (by simp only [List.length_drop, List.length_cons]; omega)
                  (List.ne_nil_of_length_pos
                    (by simp only [List.length_drop, List.length_cons]; omega))
              rw [htl, htr] at ht
              cases ht
              have hl := ih _ (by simp only [List.length_take, List.length_cons]; omega) tl htl
              have hr := ih _ (by simp only [List.length_drop, List.length_cons]; omega) tr htr
              show pidsOf tl ++ pidsOf tr = _
              rw [hl, hr, ← List.flatMap_append, List.take_append_drop]

/-- The collected rebuild units of a sound tree are sound subtrees. -/
theorem collectUnits_ok {d : List (ℕ × b2AABB)} (fullBuild : Bool) :
    ∀ t : b2TreeNode, treeOk d t → ∀ lf ∈ collectUnits fullBuild t, treeOk d lf := by
  intro t
  induction t with
  | leaf p c u h fat =>
      intro hok lf hm
      simp only [collectUnits, List.mem_singleton] at hm
      cases hm
      exact hok
  | node nb nh ne l r ihl ihr =>
      intro hok lf hm
      obtain ⟨ha, hh, hl, hr⟩ : _ ∧ _ ∧ _ ∧ _ := hok
      simp only [collectUnits] at hm
      split at hm
      · simp only [List.mem_singleton] at hm
        cases hm
        exact ⟨ha, hh, hl, hr⟩
      · simp only [List.mem_append] at hm
        cases hm with
        | inl hm => exact ihl hl lf hm
        | inr hm => exact ihr hr lf hm

/-- The collected rebuild units carry exactly the tree's ids. -/
theorem collectUnits_pids (fullBuild : Bool) :
    ∀ t : b2TreeNode, (collectUnits fullBuild t).flatMap pidsOf = pidsOf t := by
  intro t
  induction t with
  | leaf p c u h fat => simp [collectUnits, pidsOf]
  | node nb nh ne l r ihl ihr =>
      simp only [collectUnits]
      split
      · simp
      · simp only [List.flatMap_append, ihl, ihr, pidsOf]

/-- Every tree yields at least one rebuild unit. -/
theorem collectUnits_ne_nil (fullBuild : Bool) :
    ∀ t : b2TreeNode, collectUnits fullBuild t ≠ [] := by
  intro t
  induction t with
  | leaf p c u h fat => simp [collectUnits]
  | node nb nh ne l r ihl ihr =>
      simp only [collectUnits]
      split
      · simp
      · simp only [ne_eq, List.append_eq_nil, not_and]
        intro hl
        exact absurd hl ihl

/-- Ordered insertion permutes to a cons. -/
theorem perm_insertByB {α : Type} (le : α → α → Bool) (a : α) :
    ∀ l : List α, List.Perm (insertByB le a l) (a :: l)
  | [] => List.Perm.refl _
  | b :: l => by
      simp only [insertByB]
      split
      · exact List.Perm.refl _
      · exact ((perm_insertByB le a l).cons b).trans (List.Perm.swap a b l)

/-- Insertion sort permutes its input. -/
theorem perm_sortByB {α : Type} (le : α → α → Bool) :
    ∀ l : List α, List.Perm (sortByB le l) l
  | [] => List.Perm.refl _
  | a :: l => (perm_insertByB le a (sortByB le l)).trans ((perm_sortByB le l).cons a)

/-- The move fast path: declaring a new box inside the found leaf's fat
box keeps the whole tree sound. -/
theorem treeOk_setDecl_found {d : List (ℕ × b2AABB)} (pid : ℕ) (a : b2AABB) :
    ∀ t : b2TreeNode, (pidsOf t).Nodup → treeOk d t →
      ∀ cat ud fat, findLeaf pid t = some (cat, ud, fat) →
        b2AABB_Contains fat a → treeOk (setDecl d pid a) t := by
  intro t
  induction t with
  | leaf p c u h fat0 =>
      intro hnd hok cat ud fat hf hc
      simp only [findLeaf] at hf
      split at hf
      · rename_i hpe
        cases hf
        obtain ⟨h0, -⟩ : _ ∧ _ := hok
        refine ⟨h0, a, ?_, hc⟩
        rw [hpe]
        exact lookupDecl_setDecl_self d pid a
      · exact absurd hf (by simp)
  | node nb nh ne l r ihl ihr =>
      intro hnd hok cat ud fat hf hc
      simp only [pidsOf] at hnd
      rw [List.nodup_append] at hnd
      obtain ⟨ndl, ndr, hdisj⟩ := hnd
      obtain ⟨ha, hh, hl, hr⟩ : _ ∧ _ ∧ _ ∧ _ := hok
      simp only [findLeaf] at hf
      cases hfl : findLeaf pid l with
      | some y =>
          rw [hfl] at hf
          cases hf
          have hmem := findLeaf_mem pid l _ hfl
          exact ⟨ha, hh, ihl ndl hl cat ud fat hfl hc,
            treeOk_setDecl_notmem pid a r (fun hm => hdisj hmem hm) hr⟩
      | none =>
          rw [hfl] at hf
          have hnml := findLeaf_none pid l hfl
          exact ⟨ha, hh, treeOk_setDecl_notmem pid a l hnml hl,
            ihr ndr hr cat ud fat hf hc⟩

/-- Proxy creation preserves the state invariant. -/
theorem treeStateOk_createProxy (t : b2DynamicTree) (aabb : b2AABB)
    (cat ud : ℕ) (hok : treeStateOk t) :
    treeStateOk (b2DynamicTree_CreateProxy t aabb cat ud).1 := by
  simp only [b2DynamicTree_CreateProxy]
  have hlf : treeOk (setDecl t.declared t.nextProxyId aabb)
      (.leaf t.nextProxyId cat ud 0 (fattenAABB aabb)) :=
    ⟨rfl, aabb, lookupDecl_setDecl_self t.declared t.nextProxyId aabb,
      contains_fattenAABB aabb⟩
  cases hr : t.root with
  | none =>
      refine ⟨hlf, by simp [pidsOf], ?_⟩
      intro p hp
      show p < t.nextProxyId + 1
      simp only [pidsOf, List.mem_singleton] at hp
      omega
  | some r =>
      simp only [treeStateOk, hr] at hok
      obtain ⟨hokr, hnd, hbound⟩ := hok
      have hnot : t.nextProxyId ∉ pidsOf r := fun hm =>
        absurd (hbound _ hm) (lt_irrefl _)
      have hok2 : treeOk (setDecl t.declared t.nextProxyId aabb) r :=
        treeOk_setDecl_notmem t.nextProxyId aabb r hnot hokr
      have hperm := pids_insertLeafNode
        (.leaf t.nextProxyId cat ud 0 (fattenAABB aabb)) r
      refine ⟨treeOk_insertLeafNode _ hlf r hok2, ?_, ?_⟩
      · rw [hperm.nodup_iff]
        simp only [pidsOf, List.cons_append, List.nil_append]
        exact List.nodup_cons.mpr ⟨hnot, hnd⟩
      · intro p hp
        show p < t.nextProxyId + 1
        have hp2 := hperm.mem_iff.mp hp
        simp only [pidsOf, List.cons_append, List.nil_append, List.mem_cons] at hp2
        cases hp2 with
        | inl h => omega
        | inr h => have := hbound p h; omega

/-- Proxy destruction preserves the state invariant. -/
theorem treeStateOk_destroyProxy (t : b2DynamicTree) (pid : ℕ)
    (hok : treeStateOk t) : treeStateOk (b2DynamicTree_DestroyProxy t pid) := by
  simp only [b2DynamicTree_DestroyProxy]
  cases hr : t.root with
  | none => exact hok
  | some r =>
      simp only [treeStateOk, hr] at hok
      obtain ⟨hokr, hnd, hbound⟩ := hok
      dsimp only
      cases hrm : removeLeafNode pid r with
      | none => exact trivial
      | some r2 =>
          refine ⟨treeOk_removeLeaf pid r r2 hrm hokr,
            pids_removeLeaf_nodup pid r r2 hrm hnd, ?_⟩
          intro p hp
          exact hbound p (pids_removeLeaf_subset pid r r2 hrm hp)

/-- Proxy movement preserves the state invariant. -/
theorem treeStateOk_moveProxy (t : b2DynamicTree) (pid : ℕ) (aabb : b2AABB)
    (hok : treeStateOk t) : treeStateOk (b2DynamicTree_MoveProxy t pid aabb) := by
  simp only [b2DynamicTree_MoveProxy]
  cases hr : t.root with
  | none => exact hok
  | some r =>
      have hok0 := hok
      simp only [treeStateOk, hr] at hok
      obtain ⟨hokr, hnd, hbound⟩ := hok
      dsimp only
      cases hf : findLeaf pid r with
      | none => exact hok0
      | some x =>
          obtain ⟨cat, ud, fat⟩ := x
          have hpmem := findLeaf_mem pid r _ hf
          dsimp only
          by_cases hc : b2AABB_Contains fat aabb
          · rw [if_pos hc]
            exact ⟨treeOk_setDecl_found pid aabb r hnd hokr cat ud fat hf hc,
              hnd, hbound⟩
          · rw [if_neg hc]
            have hlf : treeOk (setDecl t.declared pid aabb)
                (.leaf pid cat ud 0 (fattenAABB aabb)) :=
              ⟨rfl, aabb, lookupDecl_setDecl_self t.declared pid aabb,
                contains_fattenAABB aabb⟩
            cases hrm : removeLeafNode pid r with
            | none =>
                refine ⟨hlf, by simp [pidsOf], ?_⟩
                intro p hp
                simp only [pidsOf, List.mem_singleton] at hp
                subst hp
                exact hbound _ hpmem
            | some r2 =>
                have hnd2 := pids_removeLeaf_nodup pid r r2 hrm hnd
                have hnotin := pid_notin_removeLeaf pid r r2 hnd hrm
                have hok3 : treeOk (setDecl t.declared pid aabb) r2 :=
                  treeOk_setDecl_notmem pid aabb r2 hnotin
                    (treeOk_removeLeaf pid r r2 hrm hokr)
                have hperm := pids_insertLeafNode
                  (.leaf pid cat ud 0 (fattenAABB aabb)) r2
                refine ⟨treeOk_insertLeafNode _ hlf r2 hok3, ?_, ?_⟩
                · rw [hperm.nodup_iff]
                  simp only [pidsOf, List.cons_append, List.nil_append]
                  exact List.nodup_cons.mpr ⟨hnotin, hnd2⟩
                · intro p hp
                  have hp2 := hperm.mem_iff.mp hp
                  simp only [pidsOf, List.cons_append, List.nil_append,
                    List.mem_cons] at hp2
                  cases hp2 with
                  | inl h => exact h ▸ hbound pid hpmem
                  | inr h => exact hbound p (pids_removeLeaf_subset pid r r2 hrm h)

/-- Rebuild preserves the state invariant. -/
theorem treeStateOk_rebuild (t : b2DynamicTree) (f : Bool)
    (hok : treeStateOk t) : treeStateOk (b2DynamicTree_Rebuild t f) := by
  simp only [b2DynamicTree_Rebuild]
  cases hr : t.root with
  | none => exact hok
  | some r =>
      simp only [treeStateOk, hr] at hok
      obtain ⟨hokr, hnd, hbound⟩ := hok
      dsimp only
      have hne : sortByB leafCenterLe (collectUnits f r) ≠ [] := by
        intro h0
        have hlen : (collectUnits f r).length = 0 := by
          rw [← length_sortByB leafCenterLe, h0]
          rfl
        exact collectUnits_ne_nil f r (List.length_eq_zero.mp hlen)
      obtain ⟨t2, ht2⟩ := buildFromLeaves_some
        (sortByB leafCenterLe (collectUnits f r)).length _ le_rfl hne
      rw [ht2]
      have hpids := buildFromLeaves_pids
        (sortByB leafCenterLe (collectUnits f r)).length _ le_rfl t2 ht2
      have hpermpids : List.Perm (pidsOf t2) (pidsOf r) := by
        rw [hpids, ← collectUnits_pids f r]
        exact (perm_sortByB leafCenterLe (collectUnits f r)).flatMap_right pidsOf
      refine ⟨?_, hpermpids.nodup_iff.mpr hnd, ?_⟩
      · exact buildFromLeaves_ok t.declared _ _ le_rfl
          (fun lf hm => collectUnits_ok f r hokr lf
            ((mem_sortByB leafCenterLe lf (collectUnits f r)).mp hm)) t2 ht2
      · intro p hp
        exact hbound p (hpermpids.mem_iff.mp hp)

/-- Any single operation preserves the state invariant. -/
theorem treeStateOk_applyTreeOp (t : b2DynamicTree) (op : b2TreeOp)
    (hok : treeStateOk t) : treeStateOk (applyTreeOp t op) := by
  cases op with
  | createProxy a c u => exact treeStateOk_createProxy t a c u hok
  | moveProxy p a => exact treeStateOk_moveProxy t p a hok
  | destroyProxy p => exact treeStateOk_destroyProxy t p hok
  | rebuild f => exact treeStateOk_rebuild t f hok

/-- Any operation sequence from the empty tree yields an invariant-holding
state. -/
theorem treeStateOk_applyTreeOps (ops : List b2TreeOp) :
    treeStateOk (applyTreeOps ops) := by
  have hgen : ∀ (l : List b2TreeOp) (t : b2DynamicTree), treeStateOk t →
      treeStateOk (l.foldl applyTreeOp t) := by
    intro l
    induction l with
    | nil => intro t h; exact h
    | cons op l ih => intro t h; exact ih _ (treeStateOk_applyTreeOp t op h)
  exact hgen ops b2DynamicTree_Create trivial

/-- The structural invariant implies the claim's four bullets. -/
theorem treeOk_bullets {d : List (ℕ × b2AABB)} :
    ∀ t : b2TreeNode, treeOk d t →
      leafFatOk d t ∧ internalUnionOk t ∧ leafHeightZero t ∧ heightsIncrease t := by
  intro t
  induction t with
  | leaf p c u h fat =>
      intro hok
      obtain ⟨h0, htr⟩ : _ ∧ _ := hok
      exact ⟨htr, trivial, h0, trivial⟩
  | node nb nh ne l r ihl ihr =>
      intro hok
      obtain ⟨ha, hh, hl, hr⟩ : _ ∧ _ ∧ _ ∧ _ := hok
      obtain ⟨f1, u1, z1, i1⟩ := ihl hl
      obtain ⟨f2, u2, z2, i2⟩ := ihr hr
      refine ⟨⟨f1, f2⟩, ⟨ha, u1, u2⟩, ⟨z1, z2⟩, ?_, ?_, i1, i2⟩
      · omega
      · omega

/-- C1: after any sequence of proxy creations, moves, destructions and
rebuilds (full or partial) starting from an empty dynamic tree — with
height-based rebalancing rotations applied to the ancestors on every
insertion and removal — every leaf's fattened AABB contains the proxy's
last declared true AABB, every internal node's AABB is exactly the union
of its children's, leaf heights are zero, and heights strictly increase
toward the root. -/
theorem c1_dynamic_tree_invariants (ops : List b2TreeOp) :
    match (applyTreeOps ops).root with
    | none => True
    | some r =>
        leafFatOk (applyTreeOps ops).declared r ∧ internalUnionOk r ∧
          leafHeightZero r ∧ heightsIncrease r := by
  have hok := treeStateOk_applyTreeOps ops
  cases hr : (applyTreeOps ops).root with
  | none => exact trivial
  | some r =>
      simp only [treeStateOk, hr] at hok
      exact treeOk_bullets r hok.1
